import Mathlib

set_option maxRecDepth 4000

/-!
Shallow embedding of `Ecolink/app.py`: a Flask service that loads a CSV of
wildlife corridors into an undirected weighted graph, reduces it to a minimum
spanning forest with Kruskal's algorithm (hand-rolled union-find with path
compression and union by rank), resolves fuzzy node names with difflib, and
answers `/get_corridor` queries by a shortest path restricted to the MST.

Numeric CSV fields are modelled as exact rationals (the Python floats are
treated as real numbers, as the spec does).  Python dictionaries are modelled
as insertion-ordered association lists, matching dict iteration order.
-/

abbrev Node := String

/-- The three attributes networkx stores on each edge
(`Distance=dist, Risk=risk, Weight=weight` in `load_graph`). -/
structure EdgeAttrs where
  Distance : ℚ
  Risk : ℚ
  Weight : ℚ
deriving DecidableEq

/-- The three node attributes written by `load_graph`
(`latitude`, `longitude`, `state`); the code always writes all three together. -/
structure NodeAttrs where
  latitude : ℚ
  longitude : ℚ
  state : String
deriving DecidableEq

/-- An edge as yielded by `G.edges(data=True)`. -/
abbrev EdgeT := Node × Node × EdgeAttrs

/-- Model of a `networkx.Graph`: insertion-ordered adjacency
(node ↦ insertion-ordered neighbour list) plus node-attribute storage. -/
structure Graph where
  adj : List (Node × List (Node × EdgeAttrs))
  nattrs : List (Node × NodeAttrs)
deriving DecidableEq

def emptyG : Graph := ⟨[], []⟩

/-- Ordered association-list lookup (Python `d[k]` / `d.get(k)`). -/
def alookup {α β : Type} [DecidableEq α] : List (α × β) → α → Option β
  | [], _ => none
  | (k, x) :: rest, a => if k = a then some x else alookup rest a

/-- Ordered association-list write (Python `d[k] = x`): an existing key keeps
its position, a new key is appended, as in an insertion-ordered dict. -/
def aset {α β : Type} [DecidableEq α] : List (α × β) → α → β → List (α × β)
  | [], a, x => [(a, x)]
  | (k, y) :: rest, a, x => if k = a then (a, x) :: rest else (k, y) :: aset rest a x

/-- In-place update of an existing key (no-op when the key is absent). -/
def aupdate {α β : Type} [DecidableEq α] : List (α × β) → α → (β → β) → List (α × β)
  | [], _, _ => []
  | (k, y) :: rest, a, f => if k = a then (k, f y) :: rest else (k, y) :: aupdate rest a f

def keysOf {α β : Type} (l : List (α × β)) : List α := l.map Prod.fst

/-- `G.nodes`, in insertion order. -/
def nodesOf (G : Graph) : List Node := keysOf G.adj

/-- `G[u][v]` (edge-attribute lookup), `none` when the edge is absent. -/
def lookupNbr (G : Graph) (u v : Node) : Option EdgeAttrs :=
  match alookup G.adj u with
  | none => none
  | some nbrs => alookup nbrs v

/-- networkx `add_node` as performed implicitly by `add_edge`:
a new node gets an empty adjacency entry at the end. -/
def addNode (adj : List (Node × List (Node × EdgeAttrs))) (u : Node) :
    List (Node × List (Node × EdgeAttrs)) :=
  match alookup adj u with
  | some _ => adj
  | none => adj ++ [(u, [])]

/-- networkx `G.add_edge(u, v, **attrs)`: ensure both endpoints exist, then
write the attribute record into both adjacency directions (overwriting any
previous record for the pair). -/
def add_edge (G : Graph) (u v : Node) (a : EdgeAttrs) : Graph :=
  let adj1 := addNode (addNode G.adj u) v
  let adj2 := aupdate adj1 u (fun nbrs => aset nbrs v a)
  let adj3 := aupdate adj2 v (fun nbrs => aset nbrs u a)
  ⟨adj3, G.nattrs⟩

/-- `G.nodes[u].update(latitude, longitude, state)`; the source always assigns
the three keys together, so they are modelled as one record. -/
def setNodeAttr (G : Graph) (u : Node) (na : NodeAttrs) : Graph :=
  ⟨G.adj, aset G.nattrs u na⟩

/-- One validated CSV row with the ten required columns of the dataset. -/
structure Row where
  source : String
  destination : String
  distance : ℚ
  risk : ℚ
  src_lat : ℚ
  src_lon : ℚ
  src_state : String
  dst_lat : ℚ
  dst_lon : ℚ
  dst_state : String
deriving DecidableEq

/-- The body of the `for _, row in df.iterrows()` loop of `load_graph`. -/
def applyRow (G : Graph) (r : Row) : Graph :=
  let w := r.distance + r.risk * 50
  let G1 := add_edge G r.source r.destination ⟨r.distance, r.risk, w⟩
  let G2 := setNodeAttr G1 r.source ⟨r.src_lat, r.src_lon, r.src_state⟩
  setNodeAttr G2 r.destination ⟨r.dst_lat, r.dst_lon, r.dst_state⟩

/-- `load_graph` on an already-parsed, well-typed sequence of rows
(the CSV/pandas error layer is modelled separately by `load_graph_df`). -/
def load_graph (rows : List Row) : Graph := rows.foldl applyRow emptyG

/-- `G.edges(data=True)`: iterate nodes in insertion order; at node `u` yield
`(u, v, attrs)` for each neighbour `v` not belonging to an already-processed
node, then mark `u` as seen.  Mirrors networkx's `edges` iterator. -/
def edgesGo : List (Node × List (Node × EdgeAttrs)) → List Node → List EdgeT
  | [], _ => []
  | (u, nbrs) :: rest, seen =>
    (nbrs.filter (fun vb => decide (vb.1 ∉ seen))).map (fun vb => (u, vb.1, vb.2))
      ++ edgesGo rest (u :: seen)

def edgesData (G : Graph) : List EdgeT := edgesGo G.adj []

/-- The sort key of `kruskal_mst`: `lambda e: e[2]['Weight']`. -/
def wle (e f : EdgeT) : Prop := e.2.2.Weight ≤ f.2.2.Weight

instance : DecidableRel wle := fun _ _ => inferInstanceAs (Decidable (_ ≤ _))

instance : IsTotal EdgeT wle := ⟨fun e f => le_total e.2.2.Weight f.2.2.Weight⟩

instance : IsTrans EdgeT wle := ⟨fun _ _ _ h h2 => le_trans h h2⟩

/-- `sorted(G.edges(data=True), key=lambda e: e[2]['Weight'])`: a stable sort
ascending by weight (insertion sort is stable, like Python's sort). -/
def sortedEdges (G : Graph) : List EdgeT := List.insertionSort wle (edgesData G)

/-- The recursive, path-compressing `find` of `kruskal_mst`.  Python recursion
is modelled with explicit fuel (Python itself raises `RecursionError` on deep
chains); returns the root together with the compressed parent map. -/
def ufFind : Nat → (Node → Node) → Node → Option (Node × (Node → Node))
  | 0, _, _ => none
  | fuel + 1, p, u =>
    if p u = u then some (u, p)
    else
      match ufFind fuel p (p u) with
      | none => none
      | some (r, q) => some (r, fun x => if x = u then r else q x)

/-- The `union` of `kruskal_mst`: two (mutating) finds, then union by rank.
Returns the flag Python returns plus the updated parent and rank maps. -/
def ufUnion (fuel : Nat) (p : Node → Node) (rk : Node → Nat) (u v : Node) :
    Option (Bool × (Node → Node) × (Node → Nat)) :=
  match ufFind fuel p u with
  | none => none
  | some (ru, p1) =>
    match ufFind fuel p1 v with
    | none => none
    | some (rv, p2) =>
      if ru = rv then some (false, p2, rk)
      else if rk ru < rk rv then
        some (true, fun x => if x = ru then rv else p2 x, rk)
      else
        some (true, (fun x => if x = rv then ru else p2 x),
          if rk ru = rk rv then (fun x => if x = ru then rk x + 1 else rk x) else rk)

/-- The main loop of `kruskal_mst`: process the weight-sorted edges, adding an
edge to `T` exactly when `union` succeeds. -/
def kruskalGo (fuel : Nat) :
    List EdgeT → (Node → Node) → (Node → Nat) → Graph → Option Graph
  | [], _, _, T => some T
  | (u, v, attr) :: rest, p, rk, T =>
    match ufUnion fuel p rk u v with
    | none => none
    | some (true, q, rk2) => kruskalGo fuel rest q rk2 (add_edge T u v attr)
    | some (false, q, rk2) => kruskalGo fuel rest q rk2 T

/-- `kruskal_mst(G)`.  `parent` starts as the identity on the node set
(`{n: n for n in G.nodes()}`), ranks start at 0, `T = nx.Graph()`.
`none` models exhaustion of the recursion fuel, which never occurs
(see `kruskal_mst_total`). -/
def kruskal_mst (G : Graph) : Option Graph :=
  kruskalGo ((nodesOf G).length + 1) (sortedEdges G) (fun x => x) (fun _ => 0) emptyG

/-!
Model of `difflib`: `SequenceMatcher` (with `isjunk=None`, so the b-junk set is
empty and the junk extension loops of `find_longest_match` are no-ops) and
`get_close_matches`.  `autojunk` removes "popular" characters from the index
only when the second sequence has at least 200 elements, as in CPython.
Ratios are exact rationals where CPython uses floats.
-/

/-- `b2j`: for each character of `b`, the ascending list of its positions. -/
def b2jBuild (b : List Char) : List (Char × List Nat) :=
  b.enum.foldl (fun m ci => aset m ci.2 ((alookup m ci.2).getD [] ++ [ci.1])) []

/-- `b2j` after the `autojunk` popularity filter (active only for `len(b) ≥ 200`). -/
def b2jFull (b : List Char) : List (Char × List Nat) :=
  let m := b2jBuild b
  if 200 ≤ b.length then
    let ntest := b.length / 100 + 1
    m.filter (fun kv => decide (kv.2.length ≤ ntest))
  else m

/-- The inner `for j in b2j.get(a[i], [])` loop of `find_longest_match`:
reads the previous row's `j2len`, builds `newj2len`, updates the best match.
`j < blo` is `continue` and `j >= bhi` is `break` (positions are ascending, so
`break` behaves like a filter). -/
def flmRow (j2len : List (Nat × Nat)) (blo bhi i : Nat) (js : List Nat)
    (st : Nat × Nat × Nat) : List (Nat × Nat) × (Nat × Nat × Nat) :=
  js.foldl (fun acc j =>
    if j < blo ∨ bhi ≤ j then acc
    else
      let k := (if j = 0 then 0 else (alookup j2len (j - 1)).getD 0) + 1
      let best := acc.2
      (aset acc.1 j k, if best.2.2 < k then (i + 1 - k, j + 1 - k, k) else best))
    (([] : List (Nat × Nat)), st)

/-- The `for i in range(alo, ahi)` loop of `find_longest_match`. -/
def flmMain (a : List Char) (b2j : List (Char × List Nat)) (alo ahi blo bhi : Nat) :
    Nat × Nat × Nat :=
  ((List.range' alo (ahi - alo)).foldl (fun acc i =>
      let js := (alookup b2j (a.getD i ' ')).getD []
      flmRow acc.1 blo bhi i js acc.2)
    (([] : List (Nat × Nat)), (alo, blo, 0))).2

/-- First extension loop: grow the match downward while the preceding
characters agree (the junk-free case).  Fuel bounds the while loop. -/
def extendLower (a b : List Char) (alo blo : Nat) :
    Nat → Nat × Nat × Nat → Nat × Nat × Nat
  | 0, st => st
  | fuel + 1, (besti, bestj, bestsize) =>
    if alo < besti ∧ blo < bestj ∧ a.getD (besti - 1) ' ' = b.getD (bestj - 1) ' ' then
      extendLower a b alo blo fuel (besti - 1, bestj - 1, bestsize + 1)
    else (besti, bestj, bestsize)

/-- Second extension loop: grow the match upward. -/
def extendUpper (a b : List Char) (ahi bhi : Nat) :
    Nat → Nat × Nat × Nat → Nat × Nat × Nat
  | 0, st => st
  | fuel + 1, (besti, bestj, bestsize) =>
    if besti + bestsize < ahi ∧ bestj + bestsize < bhi ∧
        a.getD (besti + bestsize) ' ' = b.getD (bestj + bestsize) ' ' then
      extendUpper a b ahi bhi fuel (besti, bestj, bestsize + 1)
    else (besti, bestj, bestsize)

/-- `SequenceMatcher.find_longest_match` with empty junk set: main dynamic
scan, then the two junk-free extension loops (the junk loops are no-ops). -/
def find_longest_match (a b : List Char) (b2j : List (Char × List Nat))
    (alo ahi blo bhi : Nat) : Nat × Nat × Nat :=
  let best := flmMain a b2j alo ahi blo bhi
  let best := extendLower a b alo blo best.1 best
  extendUpper a b ahi bhi ahi best

/-- Total size of `get_matching_blocks`: the recursive split of
`find_longest_match` matches, summing the block sizes (all `ratio` needs). -/
def matchSum (a b : List Char) (b2j : List (Char × List Nat)) :
    Nat → Nat → Nat → Nat → Nat → Nat
  | 0, _, _, _, _ => 0
  | fuel + 1, alo, ahi, blo, bhi =>
    let ijk := find_longest_match a b b2j alo ahi blo bhi
    if ijk.2.2 = 0 then 0
    else
      ijk.2.2 + matchSum a b b2j fuel alo ijk.1 blo ijk.2.1
        + matchSum a b b2j fuel (ijk.1 + ijk.2.2) ahi (ijk.2.1 + ijk.2.2) bhi

/-- `SequenceMatcher.ratio()` = `2*M/T` with `M` the sum of matching-block
sizes (rational where CPython computes a float). -/
def ratioQ (a b : List Char) : ℚ :=
  let m := matchSum a b (b2jFull b) (a.length + b.length + 1) 0 a.length 0 b.length
  2 * (m : ℚ) / ((a.length : ℚ) + (b.length : ℚ))

/-- Multiset-intersection size, the matches count of `quick_ratio`. -/
def qrMatches : List Char → List Char → Nat
  | [], _ => 0
  | c :: rest, bs => if c ∈ bs then 1 + qrMatches rest (bs.erase c) else qrMatches rest bs

def quick_ratio (a b : List Char) : ℚ :=
  2 * (qrMatches a b : ℚ) / ((a.length : ℚ) + (b.length : ℚ))

def real_quick_ratio (a b : List Char) : ℚ :=
  2 * (min a.length b.length : ℚ) / ((a.length : ℚ) + (b.length : ℚ))

/-- Descending order on `(score, candidate)` pairs, as `heapq.nlargest` uses
(lexicographic tuple comparison, so score ties break by the string, larger
first; Python compares strings by code points, as Lean's `<` does). -/
def pairBefore (x y : ℚ × String) : Prop := y.1 < x.1 ∨ (y.1 = x.1 ∧ ¬ x.2 < y.2)

instance : DecidableRel pairBefore := fun x y => by
  unfold pairBefore; infer_instance

/-- `heapq.nlargest n` = `sorted(..., reverse=True)[:n]`. -/
def nlargest (n : Nat) (l : List (ℚ × String)) : List (ℚ × String) :=
  (List.insertionSort pairBefore l).take n

/-- `difflib.get_close_matches(word, possibilities, n, cutoff)`: keep the
candidates whose ratio chain passes the cutoff, return the n best. -/
def get_close_matches (word : String) (possibilities : List String) (n : Nat)
    (cutoff : ℚ) : List String :=
  let b := word.toList
  let scored := possibilities.filterMap (fun x =>
    let a := x.toList
    if real_quick_ratio a b ≥ cutoff ∧ quick_ratio a b ≥ cutoff ∧ ratioQ a b ≥ cutoff
    then some (ratioQ a b, x) else none)
  (nlargest n scored).map Prod.snd

/-- `get_real_node_name(G, user_input)`: lower-case the input, return the
first node matching case-insensitively; otherwise the best fuzzy match above
cutoff 0.8, mapped back to the first node with that lower-cased form. -/
def get_real_node_name (G : Graph) (user_input : String) : Option Node :=
  let ui := user_input.toLower
  match (nodesOf G).find? (fun n => decide (n.toLower = ui)) with
  | some n => some n
  | none =>
    match get_close_matches ui ((nodesOf G).map (fun n => n.toLower)) 1 (4 / 5) with
    | [] => none
    | m :: _ => (nodesOf G).find? (fun n => decide (n.toLower = m))

/-!
Model of the `/get_corridor` request handler.  Query parameters are `Option
String` (absent parameter = `none`); Python truthiness makes `None` and `""`
both falsy.  `nx.shortest_path(mst, src, dst, weight=...)` is modelled by its
contract: `[source]` when source equals target (networkx returns immediately in
that case), otherwise a weight-shortest path computed by a Dijkstra scan, and
no path when the nodes are disconnected.  Exceptions the handler does not
catch are modelled by `Except.error`.
-/

inductive PyError
  | runtimeError (msg : String)
  | keyError (key : String)
  | typeError
  | recursionError
deriving DecidableEq

structure PathEdge where
  source : Node
  destination : Node
  distance : ℚ
  risk : ℚ
  source_state : String
  destination_state : String
  source_full : String
  destination_full : String
deriving DecidableEq

/-- A JSON response: HTTP error with body `error: msg`, or the 200 payload. -/
inductive Resp
  | err (status : Nat) (error : String)
  | ok (path : List PathEdge) (nodes : List (Node × NodeAttrs))
      (total_distance total_risk : ℚ)
deriving DecidableEq

/-- Python truthiness of an optional query parameter. -/
def falsyStr (s : Option String) : Bool :=
  match s with
  | none => true
  | some t => decide (t = "")

/-- Python truthiness of a resolver result. -/
def falsyRes (s : Option Node) : Bool :=
  match s with
  | none => true
  | some t => decide (t = "")

/-- First frontier entry with minimal tentative distance. -/
def selectMin : List (Node × ℚ × List Node) → Option (Node × ℚ × List Node)
  | [] => none
  | t :: rest =>
    match selectMin rest with
    | none => some t
    | some s => if s.2.1 < t.2.1 then some s else some t

/-- Insert or improve a tentative distance entry. -/
def relax (fr : List (Node × ℚ × List Node)) (v : Node) (dv : ℚ) (pv : List Node) :
    List (Node × ℚ × List Node) :=
  match fr with
  | [] => [(v, dv, pv)]
  | t :: rest =>
    if t.1 = v then (if dv < t.2.1 then (v, dv, pv) :: rest else t :: rest)
    else t :: relax rest v dv pv

/-- Dijkstra scan: pop the closest frontier node, stop at the target,
relax unvisited neighbours by edge `Weight`. -/
def djLoop (Gr : Graph) (dst : Node) :
    Nat → List (Node × ℚ × List Node) → List Node → Option (List Node)
  | 0, _, _ => none
  | fuel + 1, frontier, visited =>
    match selectMin frontier with
    | none => none
    | some (u, du, pu) =>
      if u = dst then some pu
      else
        let frontier1 := frontier.filter (fun t => decide (t.1 ≠ u))
        let visited1 := u :: visited
        let nbrs := (alookup Gr.adj u).getD []
        let frontier2 := nbrs.foldl (fun fr vb =>
          if vb.1 ∈ visited1 then fr
          else relax fr vb.1 (du + vb.2.Weight) (pu ++ [vb.1])) frontier1
        djLoop Gr dst fuel frontier2 visited1

/-- `nx.shortest_path(Gr, src, dst, weight='Weight')` on the MST:
immediately `[source]` when the endpoints coincide, else a Dijkstra search;
`none` models `networkx.NetworkXNoPath`. -/
def dijkstra (Gr : Graph) (src dst : Node) : Option (List Node) :=
  if src = dst then some [src]
  else djLoop Gr dst ((nodesOf Gr).length + 1) [(src, 0, [src])] []

/-- `G.nodes[u].get("state", "Unknown")`. -/
def stateOf (G : Graph) (u : Node) : String :=
  match alookup G.nattrs u with
  | some na => na.state
  | none => "Unknown"

/-- The edge-assembly loop of `get_corridor`: per-edge attributes are read
from `G` (not the MST) with `G[u][v]`, accumulating the distance and risk
totals. -/
def corridorEdges (G : Graph) : List (Node × Node) → Except PyError (List PathEdge × ℚ × ℚ)
  | [] => .ok ([], 0, 0)
  | (u, v) :: rest =>
    match lookupNbr G u v with
    | none => .error (.keyError v)
    | some ea =>
      match corridorEdges G rest with
      | .error e => .error e
      | .ok (es, td, tr) =>
        .ok (⟨u, v, ea.Distance, ea.Risk, stateOf G u, stateOf G v,
              u ++ " (" ++ stateOf G u ++ ")", v ++ " (" ++ stateOf G v ++ ")"⟩ :: es,
          ea.Distance + td, ea.Risk + tr)

/-- The `nodes` dictionary of the response: `latitude`/`longitude` are read by
direct indexing (a `KeyError` if the node has no attributes), `state` with a
default; `load_graph` always sets all three together. -/
def corridorNodes (G : Graph) : List Node → Except PyError (List (Node × NodeAttrs))
  | [] => .ok []
  | n :: rest =>
    match alookup G.nattrs n with
    | none => .error (.keyError "latitude")
    | some na =>
      match corridorNodes G rest with
      | .error e => .error e
      | .ok l => .ok ((n, na) :: l)

/-- The `/get_corridor` handler. -/
def get_corridor (G : Graph) (src_input dst_input : Option String) :
    Except PyError Resp :=
  if falsyStr src_input || falsyStr dst_input then
    .ok (.err 400 "Missing source or destination")
  else
    let src := get_real_node_name G (src_input.getD "")
    let dst := get_real_node_name G (dst_input.getD "")
    if falsyRes src || falsyRes dst then
      .ok (.err 404 "Sanctuary not found. Check spelling.")
    else
      match kruskal_mst G with
      | none => .error .recursionError
      | some mst =>
        let s := src.getD ""
        let d := dst.getD ""
        if s ∉ nodesOf mst ∨ d ∉ nodesOf mst then .ok (.err 404 "No path found")
        else
          match dijkstra mst s d with
          | none => .ok (.err 404 "No path found")
          | some node_list =>
            match corridorEdges G (node_list.zip node_list.tail) with
            | .error e => .error e
            | .ok (es, td, tr) =>
              match corridorNodes G node_list with
              | .error e => .error e
              | .ok nl => .ok (.ok es nl td tr)

/-!
Model of the CSV/pandas layer of `load_graph` for the error-handling claims.
`pd.read_csv` failures are the two caught exceptions (re-raised as
`RuntimeError`); a parsed frame has one shared column list, and `row[c]` on a
missing column raises `KeyError(c)` exactly as indexing a pandas row does.
Cells carry either a string or a number; using a number where the model needs
a string (or vice versa) is reported as `typeError`, the model's boundary for
data the service would crash on anyway.
-/

inductive Cell
  | str (s : String)
  | num (q : ℚ)
deriving DecidableEq

/-- A parsed dataframe: the shared header and one cell-valuation per row
(meaningful only on the header's columns). -/
structure DataFrame where
  columns : List String
  rows : List (String → Cell)

/-- The possible outcomes of `pd.read_csv` relevant to `load_graph`. -/
inductive CsvInput
  | missingFile
  | malformed
  | parsed (df : DataFrame)

/-- `row[c]`: a `KeyError` when the column is absent from the frame. -/
def getCell (df : DataFrame) (row : String → Cell) (c : String) : Except PyError Cell :=
  if c ∈ df.columns then .ok (row c) else .error (.keyError c)

def cellStr : Cell → Except PyError String
  | .str s => .ok s
  | .num _ => .error .typeError

def cellNum : Cell → Except PyError ℚ
  | .num q => .ok q
  | .str _ => .error .typeError

/-- The loop body of `load_graph` at the pandas level, reading columns in the
source's order: the four data columns, then (after `add_edge`) the six
geographic columns, each written to the endpoint nodes as it is read. -/
def applyDfRow (df : DataFrame) (G : Graph) (row : String → Cell) :
    Except PyError Graph := do
  let srcC ← getCell df row "Source"
  let dstC ← getCell df row "Destination"
  let distC ← getCell df row "Distance (km)"
  let riskC ← getCell df row "Risk Level"
  let dist ← cellNum distC
  let risk ← cellNum riskC
  let w := dist + risk * 50
  let src ← cellStr srcC
  let dst ← cellStr dstC
  let G1 := add_edge G src dst ⟨dist, risk, w⟩
  let slatC ← getCell df row "Source_Latitude"
  let slat ← cellNum slatC
  let slonC ← getCell df row "Source_Longitude"
  let slon ← cellNum slonC
  let sstC ← getCell df row "Source_State"
  let sst ← cellStr sstC
  let G2 := setNodeAttr G1 src ⟨slat, slon, sst⟩
  let dlatC ← getCell df row "Destination_Latitude"
  let dlat ← cellNum dlatC
  let dlonC ← getCell df row "Destination_Longitude"
  let dlon ← cellNum dlonC
  let dstC2 ← getCell df row "Destination_State"
  let dst2 ← cellStr dstC2
  return setNodeAttr G2 dst ⟨dlat, dlon, dst2⟩

/-- `load_graph` including the error layer: `FileNotFoundError` and
`ParserError` become `RuntimeError`s; everything else escapes untouched. -/
def load_graph_df (inp : CsvInput) : Except PyError Graph :=
  match inp with
  | .missingFile => .error (.runtimeError "File not found")
  | .malformed => .error (.runtimeError "Error parsing CSV")
  | .parsed df => df.rows.foldlM (applyDfRow df) emptyG

/-- The ten columns `load_graph` actually reads, in per-row access order. -/
def requiredCols : List String :=
  ["Source", "Destination", "Distance (km)", "Risk Level",
   "Source_Latitude", "Source_Longitude", "Source_State",
   "Destination_Latitude", "Destination_Longitude", "Destination_State"]

/-- The first required column (in access order) missing from the frame. -/
def firstMissing (df : DataFrame) : Option String :=
  requiredCols.find? (fun c => decide (c ∉ df.columns))

/-- A frame whose cells are well-typed on the required columns that exist:
name and state columns hold strings, measure columns hold numbers. -/
def WellTyped (df : DataFrame) : Prop :=
  ∀ row ∈ df.rows,
    (∃ s, row "Source" = .str s) ∧ (∃ s, row "Destination" = .str s) ∧
    (∃ q, row "Distance (km)" = .num q) ∧ (∃ q, row "Risk Level" = .num q) ∧
    (∃ q, row "Source_Latitude" = .num q) ∧ (∃ q, row "Source_Longitude" = .num q) ∧
    (∃ s, row "Source_State" = .str s) ∧ (∃ q, row "Destination_Latitude" = .num q) ∧
    (∃ q, row "Destination_Longitude" = .num q) ∧ (∃ s, row "Destination_State" = .str s)

/-!
Specification-side notions, used to state the claims: connectivity generated
by a list of undirected edges, the forest property, and the component count.
-/

/-- One undirected edge of `E` joins `x` and `y`. -/
def EdgeStep (E : List (Node × Node)) (x y : Node) : Prop :=
  (x, y) ∈ E ∨ (y, x) ∈ E

/-- `x` and `y` are connected by edges of `E`. -/
def Conn (E : List (Node × Node)) : Node → Node → Prop :=
  Relation.ReflTransGen (EdgeStep E)

/-- A list of undirected edges is a forest: in some order, every edge joins
two previously disconnected endpoints (the standard cycle-free property). -/
inductive IsForest : List (Node × Node) → Prop
  | nil : IsForest []
  | cons {E : List (Node × Node)} {u v : Node} :
      IsForest E → u ≠ v → ¬ Conn E u v → IsForest ((u, v) :: E)

/-- The endpoint pairs of an attribute-carrying edge list. -/
def pairsOf (E : List EdgeT) : List (Node × Node) := E.map (fun e => (e.1, e.2.1))

/-- Merge the classes of the two endpoints of one edge, by relabelling. -/
def mergeStep (r : Node → Node) (e : Node × Node) : Node → Node :=
  fun x => if r x = r e.1 then r e.2 else r x

/-- Canonical representative map of the components generated by an edge list
(a reference union-find without path compression, used only in statements). -/
def repFold (E : List (Node × Node)) : Node → Node :=
  E.foldl mergeStep (fun x => x)

/-- Component representatives of a graph. -/
def specRep (G : Graph) : Node → Node := repFold (pairsOf (edgesData G))

/-- The number of connected components of `G`: how many nodes are their own
component representative. -/
def numComponents (G : Graph) : Nat :=
  ((nodesOf G).filter (fun u => decide (specRep G u = u))).length

/-- This row describes the unordered pair of `u` and `v`. -/
def rowMatches (r : Row) (u v : Node) : Bool :=
  decide ((r.source = u ∧ r.destination = v) ∨ (r.source = v ∧ r.destination = u))

/-- The last dataset row describing the unordered pair of `u` and `v`. -/
def lastMatch (rows : List Row) (u v : Node) : Option Row :=
  rows.reverse.find? (fun r => rowMatches r u v)

/-!
Association-list lemmas.
-/

theorem alookup_aset {α β : Type} [DecidableEq α] (l : List (α × β)) (a b : α) (x : β) :
    alookup (aset l a x) b = if a = b then some x else alookup l b := by
  induction l with
  | nil => simp [aset, alookup]
  | cons hd tl ih =>
    obtain ⟨k, y⟩ := hd
    by_cases hk : k = a
    · subst hk
      simp only [aset, if_pos rfl, alookup]
      by_cases hb : k = b <;> simp [hb]
    · simp only [aset, if_neg hk, alookup, ih]
      by_cases hb : k = b
      · subst hb
        have : ¬ a = k := fun h => hk h.symm
        simp [this]
      · simp [hb]

theorem alookup_aupdate {α β : Type} [DecidableEq α] (l : List (α × β)) (a b : α)
    (f : β → β) :
    alookup (aupdate l a f) b =
      if a = b then (alookup l a).map f else alookup l b := by
  induction l with
  | nil => simp [aupdate, alookup]
  | cons hd tl ih =>
    obtain ⟨k, y⟩ := hd
    by_cases hk : k = a
    · subst hk
      simp only [aupdate, if_pos rfl, alookup]
      by_cases hb : k = b <;> simp [hb]
    · simp only [aupdate, if_neg hk, alookup, ih]
      by_cases hb : k = b
      · subst hb
        have : ¬ a = k := fun h => hk h.symm
        simp [hk, this]
      · simp [hb]

theorem alookup_append {α β : Type} [DecidableEq α] (l1 l2 : List (α × β)) (a : α) :
    alookup (l1 ++ l2) a =
      match alookup l1 a with
      | some x => some x
      | none => alookup l2 a := by
  induction l1 with
  | nil => simp [alookup]
  | cons hd tl ih =>
    obtain ⟨k, y⟩ := hd
    by_cases hk : k = a <;> simp [alookup, hk, ih]

theorem alookup_eq_none_iff {α β : Type} [DecidableEq α] (l : List (α × β)) (a : α) :
    alookup l a = none ↔ a ∉ keysOf l := by
  induction l with
  | nil => simp [alookup, keysOf]
  | cons hd tl ih =>
    obtain ⟨k, y⟩ := hd
    by_cases hk : k = a <;> simp [alookup, hk, keysOf, ih] <;> simp [keysOf] at ih ⊢ <;>
      tauto

theorem alookup_isSome_iff {α β : Type} [DecidableEq α] (l : List (α × β)) (a : α) :
    (alookup l a).isSome = true ↔ a ∈ keysOf l := by
  rw [Option.isSome_iff_ne_none]
  constructor
  · intro h
    by_contra hmem
    exact h ((alookup_eq_none_iff l a).2 hmem)
  · intro h hn
    exact ((alookup_eq_none_iff l a).1 hn) h

theorem alookup_eq_of_mem_nodup {α β : Type} [DecidableEq α] {l : List (α × β)}
    {a : α} {x : β} (hnd : (keysOf l).Nodup) (hmem : (a, x) ∈ l) :
    alookup l a = some x := by
  induction l with
  | nil => simp at hmem
  | cons hd tl ih =>
    obtain ⟨k, y⟩ := hd
    simp only [keysOf, List.map_cons, List.nodup_cons] at hnd
    rcases List.mem_cons.1 hmem with h | h
    · obtain ⟨rfl, rfl⟩ := Prod.mk.inj h
      simp [alookup]
    · by_cases hk : k = a
      · subst hk
        exact absurd (by simpa [keysOf] using List.mem_map_of_mem Prod.fst h) hnd.1
      · simpa [alookup, hk] using ih hnd.2 h

theorem mem_of_alookup_eq_some {α β : Type} [DecidableEq α] {l : List (α × β)}
    {a : α} {x : β} (h : alookup l a = some x) : (a, x) ∈ l := by
  induction l with
  | nil => simp [alookup] at h
  | cons hd tl ih =>
    obtain ⟨k, y⟩ := hd
    by_cases hk : k = a
    · subst hk
      simp only [alookup, eq_self_iff_true, if_true, Option.some.injEq] at h
      subst h
      exact List.mem_cons_self _ _
    · simp only [alookup, if_neg hk] at h
      exact List.mem_cons_of_mem _ (ih h)

theorem keysOf_aupdate {α β : Type} [DecidableEq α] (l : List (α × β)) (a : α)
    (f : β → β) : keysOf (aupdate l a f) = keysOf l := by
  induction l with
  | nil => simp [aupdate]
  | cons hd tl ih =>
    obtain ⟨k, y⟩ := hd
    by_cases hk : k = a <;> simp [aupdate, hk, keysOf, ih] <;> simp [keysOf] at ih <;>
      simp [ih]

theorem keysOf_aset_mem {α β : Type} [DecidableEq α] {l : List (α × β)} {a : α}
    (x : β) (h : a ∈ keysOf l) : keysOf (aset l a x) = keysOf l := by
  induction l with
  | nil => simp [keysOf] at h
  | cons hd tl ih =>
    obtain ⟨k, y⟩ := hd
    by_cases hk : k = a
    · simp [aset, hk, keysOf]
    · simp only [keysOf, List.map_cons] at h
      rcases List.mem_cons.1 h with h1 | h1
    
      · exact absurd h1.symm hk
      · simp [aset, hk, keysOf, ih h1]
        simpa [keysOf] using ih h1

theorem keysOf_aset_notmem {α β : Type} [DecidableEq α] {l : List (α × β)} {a : α}
    (x : β) (h : a ∉ keysOf l) : keysOf (aset l a x) = keysOf l ++ [a] := by
  induction l with
  | nil => simp [aset, keysOf]
  | cons hd tl ih =>
    obtain ⟨k, y⟩ := hd
    simp only [keysOf, List.map_cons, List.mem_cons] at h
    push_neg at h
    have hk : k ≠ a := fun hke => h.1 hke.symm
    simp [aset, hk, keysOf]
    simpa [keysOf] using ih h.2


/-!
Characterisation of `add_edge`.
-/

theorem lookupNbr_def (G : Graph) (u v : Node) :
    lookupNbr G u v = (alookup G.adj u).bind (fun nbrs => alookup nbrs v) := by
  unfold lookupNbr
  cases alookup G.adj u <;> rfl

theorem alookup_addNode (adj : List (Node × List (Node × EdgeAttrs))) (u x : Node) :
    alookup (addNode adj u) x =
      if x = u then some ((alookup adj u).getD []) else alookup adj x := by
  unfold addNode
  cases h : alookup adj u with
  | some nbrs =>
    by_cases hx : x = u <;> simp [hx, h]
  | none =>
    rw [alookup_append]
    by_cases hx : x = u
    · subst hx
      simp [h, alookup]
    · have hux : ¬ u = x := fun hh => hx hh.symm
      cases h2 : alookup adj x <;> simp [alookup, hux, hx, h2]

theorem keysOf_append {α β : Type} (l1 l2 : List (α × β)) :
    keysOf (l1 ++ l2) = keysOf l1 ++ keysOf l2 := by
  simp [keysOf]

theorem keysOf_addNode (adj : List (Node × List (Node × EdgeAttrs))) (u : Node) :
    keysOf (addNode adj u) =
      if u ∈ keysOf adj then keysOf adj else keysOf adj ++ [u] := by
  unfold addNode
  cases h : alookup adj u with
  | some nbrs =>
    have : u ∈ keysOf adj := (alookup_isSome_iff adj u).1 (by simp [h])
    simp [this]
  | none =>
    have hnm : u ∉ keysOf adj := (alookup_eq_none_iff adj u).1 h
    simp only [keysOf] at hnm
    simp [hnm, keysOf_append, keysOf]

/-- Raw adjacency of `add_edge`: the `v` entry, the `u` entry, and everything
else. -/
theorem alookup_add_edge_adj (G : Graph) (u v x : Node) (a : EdgeAttrs) :
    alookup (add_edge G u v a).adj x =
      if x = v then
        some (aset (if u = v then aset ((alookup G.adj u).getD []) v a
          else (alookup G.adj v).getD []) u a)
      else if x = u then some (aset ((alookup G.adj u).getD []) v a)
      else alookup G.adj x := by
  show alookup (aupdate (aupdate (addNode (addNode G.adj u) v) u _) v _) x = _
  rw [alookup_aupdate]
  rcases eq_or_ne v x with rfl | hvx
  · rw [if_pos rfl, alookup_aupdate]
    rcases eq_or_ne u v with rfl | huv
    · rw [if_pos rfl, alookup_addNode, if_pos rfl, alookup_addNode, if_pos rfl]
      simp
    · have hvu : v ≠ u := huv.symm
      rw [if_neg huv, alookup_addNode, if_pos rfl, alookup_addNode, if_neg hvu]
      simp [if_pos rfl, if_neg huv]
  · have hxv : x ≠ v := hvx.symm
    rw [if_neg hvx, alookup_aupdate]
    rcases eq_or_ne u x with rfl | hux
    · rw [if_pos rfl, alookup_addNode, if_neg hxv, alookup_addNode, if_pos rfl]
      simp [if_neg hxv]
    · have hxu : x ≠ u := hux.symm
      rw [if_neg hux, alookup_addNode, if_neg hxv, alookup_addNode, if_neg hxu,
        if_neg hxv, if_neg hxu]

/-- `add_edge` writes exactly the unordered pair `(u, v)` and leaves every
other adjacency lookup unchanged. -/
theorem lookupNbr_add_edge (G : Graph) (u v x y : Node) (a : EdgeAttrs) :
    lookupNbr (add_edge G u v a) x y =
      if (x = u ∧ y = v) ∨ (x = v ∧ y = u) then some a else lookupNbr G x y := by
  rw [lookupNbr_def, alookup_add_edge_adj]
  rcases eq_or_ne x v with rfl | hxv
  · rw [if_pos rfl]
    rcases eq_or_ne y u with rfl | hyu
    · simp [alookup_aset, lookupNbr_def]
    · have huy : u ≠ y := hyu.symm
      rcases eq_or_ne u x with rfl | hux
      · cases h : alookup G.adj u <;>
          simp [alookup_aset, h, lookupNbr_def, hyu, huy, alookup]
      · have hxu : x ≠ u := hux.symm
        cases h : alookup G.adj x <;>
          simp [alookup_aset, h, lookupNbr_def, hyu, huy, hux, hxu, alookup]
  · rcases eq_or_ne x u with rfl | hxu
    · have hvx : v ≠ x := hxv.symm
      rw [if_neg hxv, if_pos rfl]
      rcases eq_or_ne y v with rfl | hyv
      · simp [alookup_aset, lookupNbr_def, hxv, hvx]
      · have hvy : v ≠ y := hyv.symm
        cases h : alookup G.adj x <;>
          simp [alookup_aset, h, lookupNbr_def, hyv, hvy, hxv, hvx, alookup]
    · rw [if_neg hxv, if_neg hxu]
      have hcond : ¬ ((x = u ∧ y = v) ∨ (x = v ∧ y = u)) := by
        rintro (⟨h1, _⟩ | ⟨h1, _⟩)
        · exact hxu h1
        · exact hxv h1
      simp [hcond, lookupNbr_def]

theorem nodesOf_add_edge_eq (G : Graph) (u v : Node) (a : EdgeAttrs) :
    nodesOf (add_edge G u v a) = keysOf (addNode (addNode G.adj u) v) := by
  show keysOf (aupdate (aupdate _ u _) v _) = _
  rw [keysOf_aupdate, keysOf_aupdate]

theorem mem_nodesOf_add_edge (G : Graph) (u v x : Node) (a : EdgeAttrs) :
    x ∈ nodesOf (add_edge G u v a) ↔ x = u ∨ x = v ∨ x ∈ nodesOf G := by
  rw [nodesOf_add_edge_eq, keysOf_addNode, keysOf_addNode]
  unfold nodesOf
  split_ifs with h1 h2 h3 <;>
    simp only [List.mem_append, List.mem_singleton] at *
  · constructor
    · tauto
    · rintro (rfl | rfl | hx)
      · exact h1
      · exact h2
      · exact hx
  · constructor
    · tauto
    · rintro (rfl | rfl | hx)
      · exact Or.inl h1
      · exact Or.inr rfl
      · exact Or.inl hx
  · constructor
    · tauto
    · rintro (rfl | rfl | hx)
      · exact Or.inr rfl
      · rcases h3 with h3 | h3
        · exact Or.inl h3
        · exact Or.inr h3
      · exact Or.inl hx
  · constructor
    · tauto
    · rintro (rfl | rfl | hx)
      · exact Or.inl (Or.inr rfl)
      · exact Or.inr rfl
      · exact Or.inl (Or.inl hx)

theorem nodup_nodesOf_add_edge (G : Graph) (u v : Node) (a : EdgeAttrs)
    (h : (nodesOf G).Nodup) : (nodesOf (add_edge G u v a)).Nodup := by
  rw [nodesOf_add_edge_eq, keysOf_addNode, keysOf_addNode]
  unfold nodesOf at h
  split_ifs with h1 h2 h3 <;> simp_all [List.nodup_append, List.mem_append] <;>
    exact fun hh => h3.2 hh.symm

/-- Structural well-formedness of a `networkx`-style graph: node keys are
unique, the neighbour keys of each node are unique, and the adjacency is
symmetric. -/
structure GWF (G : Graph) : Prop where
  knodup : (nodesOf G).Nodup
  nbrnodup : ∀ u nbrs, alookup G.adj u = some nbrs → (keysOf nbrs).Nodup
  symm : ∀ u v, lookupNbr G u v = lookupNbr G v u

theorem nodup_keys_aset {α β : Type} [DecidableEq α] {l : List (α × β)} {k : α}
    (x : β) (h : (keysOf l).Nodup) : (keysOf (aset l k x)).Nodup := by
  by_cases hm : k ∈ keysOf l
  · rw [keysOf_aset_mem x hm]
    exact h
  · rw [keysOf_aset_notmem x hm]
    simp [List.nodup_append, h, hm]

theorem GWF_emptyG : GWF emptyG := by
  refine ⟨?_, ?_, ?_⟩
  · simp [nodesOf, emptyG, keysOf]
  · intro u nbrs hz
    simp [emptyG, alookup] at hz
  · intro x y
    rfl

theorem GWF_add_edge {G : Graph} (h : GWF G) (u v : Node) (a : EdgeAttrs) :
    GWF (add_edge G u v a) := by
  refine ⟨nodup_nodesOf_add_edge _ _ _ _ h.knodup, ?_, ?_⟩
  · intro z nbrs hz
    rw [alookup_add_edge_adj] at hz
    split_ifs at hz with h1 h2 h3
    · injection hz with hz
      subst hz
      apply nodup_keys_aset
      apply nodup_keys_aset
      cases hu : alookup G.adj u with
      | none => simp [keysOf]
      | some n => exact h.nbrnodup _ _ hu
    · injection hz with hz
      subst hz
      apply nodup_keys_aset
      cases hv : alookup G.adj v with
      | none => simp [keysOf]
      | some n => exact h.nbrnodup _ _ hv
    · injection hz with hz
      subst hz
      apply nodup_keys_aset
      cases hu : alookup G.adj u with
      | none => simp [keysOf]
      | some n => exact h.nbrnodup _ _ hu
    · exact h.nbrnodup _ _ hz
  · intro x y
    rw [lookupNbr_add_edge, lookupNbr_add_edge]
    by_cases hC : (x = u ∧ y = v) ∨ (x = v ∧ y = u)
    · have hC2 : (y = u ∧ x = v) ∨ (y = v ∧ x = u) := by tauto
      rw [if_pos hC, if_pos hC2]
    · have hC2 : ¬ ((y = u ∧ x = v) ∨ (y = v ∧ x = u)) := by tauto
      rw [if_neg hC, if_neg hC2, h.symm]

theorem GWF_setNodeAttr {G : Graph} (h : GWF G) (u : Node) (na : NodeAttrs) :
    GWF (setNodeAttr G u na) :=
  ⟨h.knodup, h.nbrnodup, h.symm⟩

theorem GWF_applyRow {G : Graph} (h : GWF G) (r : Row) : GWF (applyRow G r) :=
  GWF_setNodeAttr (GWF_setNodeAttr (GWF_add_edge h _ _ _) _ _) _ _

theorem GWF_load_graph (rows : List Row) : GWF (load_graph rows) := by
  unfold load_graph
  have : ∀ G, GWF G → GWF (rows.foldl applyRow G) := by
    induction rows with
    | nil => intro G h; exact h
    | cons r rest ih =>
      intro G h
      exact ih _ (GWF_applyRow h r)
  exact this emptyG GWF_emptyG

/-- Every stored edge attribute satisfies the weight formula. -/
def WeightsOK (G : Graph) : Prop :=
  ∀ u v ea, lookupNbr G u v = some ea → ea.Weight = ea.Distance + ea.Risk * 50

theorem WeightsOK_applyRow {G : Graph} (h : WeightsOK G) (r : Row) :
    WeightsOK (applyRow G r) := by
  intro u v ea hea
  have : lookupNbr (applyRow G r) u v =
      lookupNbr (add_edge G r.source r.destination
        ⟨r.distance, r.risk, r.distance + r.risk * 50⟩) u v := rfl
  rw [this, lookupNbr_add_edge] at hea
  split_ifs at hea with h1
  · injection hea with hea
    subst hea
    rfl
  · exact h u v ea hea

theorem WeightsOK_load_graph (rows : List Row) : WeightsOK (load_graph rows) := by
  unfold load_graph
  have : ∀ G, WeightsOK G → WeightsOK (rows.foldl applyRow G) := by
    induction rows with
    | nil => intro G h; exact h
    | cons r rest ih =>
      intro G h
      exact ih _ (WeightsOK_applyRow h r)
  refine this emptyG ?_
  intro u v ea hea
  simp [lookupNbr, emptyG, alookup] at hea

/-- Every node of the graph has its attribute record set. -/
def AttrsOK (G : Graph) : Prop :=
  ∀ u, u ∈ nodesOf G → (alookup G.nattrs u).isSome

theorem AttrsOK_applyRow {G : Graph} (h : AttrsOK G) (r : Row) :
    AttrsOK (applyRow G r) := by
  intro u hu
  have hmem : u ∈ nodesOf (add_edge G r.source r.destination
      ⟨r.distance, r.risk, r.distance + r.risk * 50⟩) := hu
  rw [mem_nodesOf_add_edge] at hmem
  show (alookup (aset (aset G.nattrs r.source _) r.destination _) u).isSome
  rw [alookup_aset, alookup_aset]
  rcases hmem with rfl | rfl | hold
  · split_ifs with hh1 hh2
    · simp
    · simp
    · exact absurd rfl hh2
  · split_ifs with hh1 hh2
    · simp
    · simp
    · exact absurd rfl hh1
  · split_ifs with hh1 hh2
    · simp
    · simp
    · exact h u hold

theorem AttrsOK_load_graph (rows : List Row) : AttrsOK (load_graph rows) := by
  unfold load_graph
  have : ∀ G, AttrsOK G → AttrsOK (rows.foldl applyRow G) := by
    induction rows with
    | nil => intro G h; exact h
    | cons r rest ih =>
      intro G h
      exact ih _ (AttrsOK_applyRow h r)
  refine this emptyG ?_
  intro u hu
  simp [nodesOf, emptyG, keysOf] at hu

theorem lastMatch_nil (u v : Node) : lastMatch [] u v = none := rfl

theorem lastMatch_cons (r : Row) (rows : List Row) (u v : Node) :
    lastMatch (r :: rows) u v =
      match lastMatch rows u v with
      | some x => some x
      | none => if rowMatches r u v then some r else none := by
  unfold lastMatch
  rw [List.reverse_cons, List.find?_append]
  cases h : List.find? (fun r => rowMatches r u v) rows.reverse with
  | some x => simp [h]
  | none =>
    simp only [h, Option.none_orElse]
    cases hm : rowMatches r u v <;> simp [List.find?, hm]

/-- Last-write-wins at the adjacency level: after folding the rows, the stored
attribute record for an unordered pair is exactly the one derived from the
last row describing that pair. -/
theorem lookupNbr_foldl_lastMatch (rows : List Row) (G : Graph) (u v : Node) :
    lookupNbr (rows.foldl applyRow G) u v =
      match lastMatch rows u v with
      | some r => some ⟨r.distance, r.risk, r.distance + r.risk * 50⟩
      | none => lookupNbr G u v := by
  induction rows generalizing G with
  | nil => simp [lastMatch_nil]
  | cons r rest ih =>
    rw [List.foldl_cons, ih, lastMatch_cons]
    cases h : lastMatch rest u v with
    | some x => simp
    | none =>
      simp only []
      have hlook : lookupNbr (applyRow G r) u v =
          lookupNbr (add_edge G r.source r.destination
            ⟨r.distance, r.risk, r.distance + r.risk * 50⟩) u v := rfl
      rw [hlook, lookupNbr_add_edge]
      cases hm : rowMatches r u v with
      | true =>
        have hcond : (u = r.source ∧ v = r.destination) ∨
            (u = r.destination ∧ v = r.source) := by
          have := of_decide_eq_true hm
          tauto
      
        simp [if_pos hcond]
      | false =>
        have hcond : ¬ ((u = r.source ∧ v = r.destination) ∨
            (u = r.destination ∧ v = r.source)) := by
          have := of_decide_eq_false hm
          unfold rowMatches at hm
          rw [decide_eq_false_iff_not] at hm
          tauto
        simp [if_neg hcond]

/-!
Connectivity lemmas.
-/

theorem edgeStep_symm {E : List (Node × Node)} {x y : Node} (h : EdgeStep E x y) :
    EdgeStep E y x := h.elim Or.inr Or.inl

theorem conn_refl (E : List (Node × Node)) (x : Node) : Conn E x x :=
  Relation.ReflTransGen.refl

theorem conn_single {E : List (Node × Node)} {x y : Node} (h : EdgeStep E x y) :
    Conn E x y := Relation.ReflTransGen.single h

theorem conn_trans {E : List (Node × Node)} {x y z : Node} (h1 : Conn E x y)
    (h2 : Conn E y z) : Conn E x z := Relation.ReflTransGen.trans h1 h2

theorem conn_symm {E : List (Node × Node)} {x y : Node} (h : Conn E x y) :
    Conn E y x := by
  induction h with
  | refl => exact conn_refl E x
  | tail _ hbc ih => exact conn_trans (conn_single (edgeStep_symm hbc)) ih

theorem conn_mono {E1 E2 : List (Node × Node)} (hsub : ∀ e, e ∈ E1 → e ∈ E2)
    {x y : Node} (h : Conn E1 x y) : Conn E2 x y :=
  Relation.ReflTransGen.mono
    (fun _ _ hab => hab.elim (fun hm => Or.inl (hsub _ hm)) (fun hm => Or.inr (hsub _ hm))) h

theorem conn_congr {E1 E2 : List (Node × Node)} (h : ∀ e, e ∈ E1 ↔ e ∈ E2)
    (x y : Node) : Conn E1 x y ↔ Conn E2 x y :=
  ⟨conn_mono (fun e he => (h e).1 he), conn_mono (fun e he => (h e).2 he)⟩

theorem conn_nil_iff (x y : Node) : Conn [] x y ↔ x = y := by
  constructor
  · intro h
    induction h with
    | refl => rfl
    | tail _ hbc _ => rcases hbc with hm | hm <;> simp at hm
  · rintro rfl
    exact conn_refl _ _

/-- Adding one edge connects exactly what the edge's endpoints connect. -/
theorem conn_cons_decompose {E : List (Node × Node)} {u v x y : Node}
    (h : Conn ((u, v) :: E) x y) :
    Conn E x y ∨ (Conn E x u ∧ Conn E v y) ∨ (Conn E x v ∧ Conn E u y) := by
  induction h with
  | refl => exact Or.inl (conn_refl _ _)
  | @tail b c hxb hbc ih =>
    have hstep : EdgeStep E b c ∨ (b, c) = (u, v) ∨ (c, b) = (u, v) := by
      rcases hbc with hm | hm
      · rcases List.mem_cons.1 hm with hm2 | hm2
        · exact Or.inr (Or.inl hm2)
        · exact Or.inl (Or.inl hm2)
      · rcases List.mem_cons.1 hm with hm2 | hm2
        · exact Or.inr (Or.inr hm2)
        · exact Or.inl (Or.inr hm2)
    rcases hstep with hs | hs | hs
    · rcases ih with ih | ⟨ih1, ih2⟩ | ⟨ih1, ih2⟩
      · exact Or.inl (conn_trans ih (conn_single hs))
      · exact Or.inr (Or.inl ⟨ih1, conn_trans ih2 (conn_single hs)⟩)
      · exact Or.inr (Or.inr ⟨ih1, conn_trans ih2 (conn_single hs)⟩)
    · obtain ⟨rfl, rfl⟩ := Prod.mk.inj hs
      rcases ih with ih | ⟨ih1, ih2⟩ | ⟨ih1, ih2⟩
      · exact Or.inr (Or.inl ⟨ih, conn_refl _ _⟩)
      · exact Or.inl (conn_trans ih1 (conn_symm ih2))
      · exact Or.inl ih1
    · obtain ⟨rfl, rfl⟩ := Prod.mk.inj hs
      rcases ih with ih | ⟨ih1, ih2⟩ | ⟨ih1, ih2⟩
      · exact Or.inr (Or.inr ⟨ih, conn_refl _ _⟩)
      · exact Or.inl ih1
      · exact Or.inl (conn_trans ih1 (conn_symm ih2))

theorem conn_cons_iff {E : List (Node × Node)} {u v x y : Node} :
    Conn ((u, v) :: E) x y ↔
      Conn E x y ∨ (Conn E x u ∧ Conn E v y) ∨ (Conn E x v ∧ Conn E u y) := by
  constructor
  · exact conn_cons_decompose
  · have hmono : ∀ a b, Conn E a b → Conn ((u, v) :: E) a b :=
      fun a b => conn_mono (fun e he => List.mem_cons_of_mem _ he)
    have hedge : Conn ((u, v) :: E) u v :=
      conn_single (Or.inl (List.mem_cons_self _ _))
    rintro (h | ⟨h1, h2⟩ | ⟨h1, h2⟩)
    · exact hmono _ _ h
    · exact conn_trans (hmono _ _ h1) (conn_trans hedge (hmono _ _ h2))
    · exact conn_trans (hmono _ _ h1) (conn_trans (conn_symm hedge) (hmono _ _ h2))

theorem conn_cons_redundant {E : List (Node × Node)} {u v : Node}
    (h : Conn E u v) (x y : Node) : Conn ((u, v) :: E) x y ↔ Conn E x y := by
  rw [conn_cons_iff]
  constructor
  · rintro (h1 | ⟨h1, h2⟩ | ⟨h1, h2⟩)
    · exact h1
    · exact conn_trans h1 (conn_trans h h2)
    · exact conn_trans h1 (conn_trans (conn_symm h) h2)
  · exact Or.inl

/-- The forest property only depends on the edge multiset, not its order. -/
theorem isForest_perm {E1 E2 : List (Node × Node)} (hp : E1.Perm E2)
    (h : IsForest E1) : IsForest E2 := by
  induction hp with
  | nil => exact h
  | cons e hp2 ih =>
    obtain ⟨u, v⟩ := e
    cases h with
    | cons hf hne hnc =>
      refine IsForest.cons (ih hf) hne (fun hc => hnc ?_)
      exact (conn_congr (fun e2 => hp2.mem_iff) u v).2 hc
  | swap x y l =>
    obtain ⟨u1, v1⟩ := x
    obtain ⟨u2, v2⟩ := y
    cases h with
    | cons hf1 hne2 hnc2 =>
      cases hf1 with
      | cons hf2 hne1 hnc1 =>
        have hmono : ∀ a b, Conn l a b → Conn ((u1, v1) :: l) a b :=
          fun a b => conn_mono (fun e he => List.mem_cons_of_mem _ he)
        have hedge : Conn ((u1, v1) :: l) u1 v1 :=
          conn_single (Or.inl (List.mem_cons_self _ _))
        refine IsForest.cons (IsForest.cons hf2 hne2 ?_) hne1 ?_
        · intro hc
          exact hnc2 (hmono _ _ hc)
        · intro hc
          rcases conn_cons_decompose hc with h1 | ⟨h1, h2⟩ | ⟨h1, h2⟩
          · exact hnc1 h1
          · exact hnc2 (conn_trans (hmono _ _ (conn_symm h1))
              (conn_trans hedge (hmono _ _ (conn_symm h2))))
          · exact hnc2 (conn_trans (hmono _ _ h2)
              (conn_trans (conn_symm hedge) (hmono _ _ h1)))
  | trans h1 h2 ih1 ih2 => exact ih2 (ih1 h)

/-!
Union-find: parent-chain iteration and the well-formedness invariant the
Kruskal loop maintains.
-/

def iterp (p : Node → Node) : Nat → Node → Node
  | 0, u => u
  | k + 1, u => iterp p k (p u)

def isRoot (p : Node → Node) (u : Node) : Prop := p u = u

instance (p : Node → Node) (u : Node) : Decidable (isRoot p u) :=
  inferInstanceAs (Decidable (p u = u))

theorem iterp_succ_right (p : Node → Node) (k : Nat) (u : Node) :
    iterp p (k + 1) u = p (iterp p k u) := by
  induction k generalizing u with
  | zero => rfl
  | succ k ih =>
    show iterp p (k + 1) (p u) = p (iterp p (k + 1) u)
    rw [ih (p u)]
    rfl

theorem iterp_add (p : Node → Node) (m n : Nat) (u : Node) :
    iterp p (m + n) u = iterp p m (iterp p n u) := by
  induction m with
  | zero => simp [iterp]
  | succ m ih =>
    have h1 : m + 1 + n = (m + n) + 1 := by omega
    rw [h1, iterp_succ_right, ih]
    exact (iterp_succ_right p m (iterp p n u)).symm

theorem iterp_of_isRoot {p : Node → Node} {u : Node} (h : isRoot p u) (k : Nat) :
    iterp p k u = u := by
  induction k with
  | zero => rfl
  | succ k ih =>
    show iterp p k (p u) = u
    rw [h]
    exact ih

theorem isRoot_iterp_stable {p : Node → Node} {u : Node} {k m : Nat}
    (h : isRoot p (iterp p k u)) (hkm : k ≤ m) : iterp p m u = iterp p k u := by
  obtain ⟨d, rfl⟩ := Nat.exists_eq_add_of_le hkm
  rw [Nat.add_comm k d, iterp_add]
  exact iterp_of_isRoot h d

/-- Invariant of the parent map: it fixes everything outside the node list,
stays inside the node list, and every chain reaches a root within `|ns|`
steps. -/
structure UFInv (ns : List Node) (p : Node → Node) : Prop where
  closed : ∀ u, u ∈ ns → p u ∈ ns
  outside : ∀ u, u ∉ ns → p u = u
  reach : ∀ u, ∃ k, k ≤ ns.length ∧ isRoot p (iterp p k u)

/-- The root of a chain, as the `|ns|`-fold parent iterate. -/
def rootOf (ns : List Node) (p : Node → Node) (u : Node) : Node :=
  iterp p ns.length u

theorem UFInv.id_init (ns : List Node) : UFInv ns (fun x => x) := by
  refine ⟨fun u hu => hu, fun u _ => rfl, fun u => ⟨0, Nat.zero_le _, rfl⟩⟩

theorem iterp_id (ns : List Node) (k : Nat) (u : Node) :
    iterp (fun x => x) k u = u := by
  induction k with
  | zero => rfl
  | succ k ih => exact ih

theorem rootOf_id (ns : List Node) (u : Node) : rootOf ns (fun x => x) u = u :=
  iterp_id ns ns.length u

theorem rootOf_isRoot {ns : List Node} {p : Node → Node} (h : UFInv ns p) (u : Node) :
    isRoot p (rootOf ns p u) := by
  obtain ⟨k, hk, hr⟩ := h.reach u
  unfold rootOf
  rw [isRoot_iterp_stable hr hk]
  exact hr

theorem rootOf_eq_of_reach {ns : List Node} {p : Node → Node} {u : Node} {k : Nat}
    (hr : isRoot p (iterp p k u)) (hk : k ≤ ns.length) :
    iterp p k u = rootOf ns p u := (isRoot_iterp_stable hr hk).symm

theorem rootOf_of_isRoot {ns : List Node} {p : Node → Node} {u : Node}
    (hr : isRoot p u) : rootOf ns p u = u := iterp_of_isRoot hr _

theorem rootOf_parent {ns : List Node} {p : Node → Node} (h : UFInv ns p) (u : Node) :
    rootOf ns p (p u) = rootOf ns p u := by
  have h1 : iterp p (ns.length + 1) u = iterp p ns.length (p u) := rfl
  have h2 : iterp p (ns.length + 1) u = iterp p ns.length u :=
    isRoot_iterp_stable (rootOf_isRoot h u) (Nat.le_succ _)
  show iterp p ns.length (p u) = iterp p ns.length u
  rw [← h1, h2]

theorem rootOf_idem {ns : List Node} {p : Node → Node} (h : UFInv ns p) (u : Node) :
    rootOf ns p (rootOf ns p u) = rootOf ns p u :=
  rootOf_of_isRoot (rootOf_isRoot h u)

theorem iterp_mem {ns : List Node} {p : Node → Node} (h : UFInv ns p) {u : Node}
    (hu : u ∈ ns) (k : Nat) : iterp p k u ∈ ns := by
  induction k generalizing u with
  | zero => exact hu
  | succ k ih => exact ih (h.closed u hu)

theorem rootOf_mem {ns : List Node} {p : Node → Node} (h : UFInv ns p) {u : Node}
    (hu : u ∈ ns) : rootOf ns p u ∈ ns := iterp_mem h hu _

theorem rootOf_outside {ns : List Node} {p : Node → Node} (h : UFInv ns p) {u : Node}
    (hu : u ∉ ns) : rootOf ns p u = u := iterp_of_isRoot (h.outside u hu) _

theorem isRoot_of_rootOf_eq_self {ns : List Node} {p : Node → Node} (h : UFInv ns p)
    {u : Node} (he : rootOf ns p u = u) : isRoot p u := by
  have := rootOf_isRoot h u
  rwa [he] at this

/-- Pre-root positions of a terminating chain are pairwise distinct. -/
theorem chain_distinct {p : Node → Node} {u : Node} {k : Nat}
    (hmin : ∀ j, j < k → ¬ isRoot p (iterp p j u)) (hk : isRoot p (iterp p k u)) :
    ∀ i j, i < j → j ≤ k → iterp p i u ≠ iterp p j u := by
  intro i j hij hjk heq
  have hd : 0 < j - i := by omega
  have hper : ∀ m : Nat, iterp p (i + m * (j - i)) u = iterp p i u := by
    intro m
    induction m with
    | zero => simp
    | succ m ih =>
      have harith : i + (m + 1) * (j - i) = (j - i) + (i + m * (j - i)) := by ring
      rw [harith, iterp_add, ih]
      have harith2 : (j - i) + i = j := by omega
      calc iterp p (j - i) (iterp p i u)
          = iterp p ((j - i) + i) u := (iterp_add p _ i u).symm
        _ = iterp p j u := by rw [harith2]
        _ = iterp p i u := heq.symm
  have hbig : i + k * (j - i) ≥ k := by
    have := Nat.mul_le_mul_left k hd
    omega
  have hroot : isRoot p (iterp p i u) := by
    rw [← hper k]
    have hstable : iterp p (i + k * (j - i)) u = iterp p k u :=
      isRoot_iterp_stable hk hbig
    rw [hstable]
    exact hk
  exact hmin i (lt_of_lt_of_le hij hjk) hroot

/-- `find` returns the chain's root together with a parent map that only
redirects nodes straight to their root (path compression). -/
theorem ufFind_spec {ns : List Node} {p : Node → Node} (h : UFInv ns p) :
    ∀ (k : Nat) (u : Node) (fuel : Nat), isRoot p (iterp p k u) → k < fuel →
      ∃ q, ufFind fuel p u = some (rootOf ns p u, q) ∧
        ∀ x, q x = p x ∨ q x = rootOf ns p x := by
  intro k
  induction k with
  | zero =>
    intro u fuel hr hf
    obtain ⟨f, rfl⟩ : ∃ f, fuel = f + 1 := ⟨fuel - 1, by omega⟩
    refine ⟨p, ?_, fun x => Or.inl rfl⟩
    unfold ufFind
    rw [if_pos (show p u = u from hr), rootOf_of_isRoot (show isRoot p u from hr)]
  | succ k ih =>
    intro u fuel hr hf
    obtain ⟨f, rfl⟩ : ∃ f, fuel = f + 1 := ⟨fuel - 1, by omega⟩
    by_cases hru : isRoot p u
    · refine ⟨p, ?_, fun x => Or.inl rfl⟩
      unfold ufFind
      rw [if_pos (show p u = u from hru), rootOf_of_isRoot hru]
    · have hr2 : isRoot p (iterp p k (p u)) := hr
      obtain ⟨q, hq1, hq2⟩ := ih (p u) f hr2 (by omega)
      refine ⟨fun x => if x = u then rootOf ns p (p u) else q x, ?_, ?_⟩
      · unfold ufFind
        rw [if_neg (show ¬ p u = u from hru), hq1]
        simp only [rootOf_parent h]
      · intro x
        by_cases hx : x = u
        · subst hx
          right
          rw [rootOf_parent h]
          simp
        · simpa [hx] using hq2 x

theorem ufFind_ok {ns : List Node} {p : Node → Node} (h : UFInv ns p) (u : Node) :
    ∃ q, ufFind (ns.length + 1) p u = some (rootOf ns p u, q) ∧
      ∀ x, q x = p x ∨ q x = rootOf ns p x := by
  obtain ⟨k, hk, hr⟩ := h.reach u
  exact ufFind_spec h k u (ns.length + 1) hr (by omega)

theorem compress_isRoot {ns : List Node} {p q : Node → Node} (h : UFInv ns p)
    (hq : ∀ x, q x = p x ∨ q x = rootOf ns p x) :
    ∀ x, isRoot q x ↔ isRoot p x := by
  intro x
  unfold isRoot
  constructor
  · intro hqx
    rcases hq x with he | he
    · rw [he] at hqx
      exact hqx
    · rw [he] at hqx
      have hrr := rootOf_isRoot h x
      rw [hqx] at hrr
      exact hrr
  · intro hpx
    rcases hq x with he | he
    · rw [he]
      exact hpx
    · rw [he]
      exact rootOf_of_isRoot hpx

theorem compress_reach {ns : List Node} {p q : Node → Node} (h : UFInv ns p)
    (hq : ∀ x, q x = p x ∨ q x = rootOf ns p x) :
    ∀ (k : Nat) (u : Node), isRoot p (iterp p k u) →
      ∃ j, j ≤ k ∧ isRoot q (iterp q j u) ∧ iterp q j u = rootOf ns p u := by
  intro k
  induction k with
  | zero =>
    intro u hr
    exact ⟨0, le_refl _, (compress_isRoot h hq u).2 hr, (rootOf_of_isRoot hr).symm⟩
  | succ k ih =>
    intro u hr
    by_cases hru : isRoot p u
    · exact ⟨0, Nat.zero_le _, (compress_isRoot h hq u).2 hru,
        (rootOf_of_isRoot hru).symm⟩
    · rcases hq u with he | he
      · obtain ⟨j, hj, hjr, hje⟩ := ih (p u) hr
        refine ⟨j + 1, by omega, ?_, ?_⟩
        · show isRoot q (iterp q j (q u))
          rw [he]
          exact hjr
        · show iterp q j (q u) = rootOf ns p u
          rw [he, hje, rootOf_parent h]
      · refine ⟨1, by omega, ?_, ?_⟩
        · show isRoot q (q u)
          rw [he]
          exact (compress_isRoot h hq _).2 (rootOf_isRoot h u)
        · exact he

/-- Path compression preserves the invariant and every root. -/
theorem compress_inv {ns : List Node} {p q : Node → Node} (h : UFInv ns p)
    (hq : ∀ x, q x = p x ∨ q x = rootOf ns p x) :
    UFInv ns q ∧ ∀ u, rootOf ns q u = rootOf ns p u := by
  have hinv : UFInv ns q := by
    refine ⟨?_, ?_, ?_⟩
    · intro u hu
      rcases hq u with he | he
      · rw [he]
        exact h.closed u hu
      · rw [he]
        exact rootOf_mem h hu
    · intro u hu
      rcases hq u with he | he
      · rw [he]
        exact h.outside u hu
      · rw [he]
        exact rootOf_outside h hu
    · intro u
      obtain ⟨k, hk, hr⟩ := h.reach u
      obtain ⟨j, hj, hjr, _⟩ := compress_reach h hq k u hr
      exact ⟨j, le_trans hj hk, hjr⟩
  refine ⟨hinv, fun u => ?_⟩
  obtain ⟨k, hk, hr⟩ := h.reach u
  obtain ⟨j, hj, hjr, hje⟩ := compress_reach h hq k u hr
  rw [← rootOf_eq_of_reach hjr (le_trans hj hk)]
  exact hje

theorem link_isRoot (p : Node → Node) (ra rb : Node) (hrb : rb ≠ ra) :
    ∀ x, isRoot (fun z => if z = ra then rb else p z) x ↔ (isRoot p x ∧ x ≠ ra) := by
  intro x
  unfold isRoot
  by_cases hx : x = ra
  · subst hx
    simp [hrb]
  · simp [hx]

theorem nodup_length_le {l ns : List Node} (hnd : l.Nodup) (hsub : ∀ x, x ∈ l → x ∈ ns) :
    l.length ≤ ns.length := by
  have h1 : l.toFinset.card = l.length := List.toFinset_card_of_nodup hnd
  have h2 : l.toFinset ⊆ ns.toFinset := by
    intro x hx
    rw [List.mem_toFinset] at hx ⊢
    exact hsub x hx
  calc l.length = l.toFinset.card := h1.symm
    _ ≤ ns.toFinset.card := Finset.card_le_card h2
    _ ≤ ns.length := ns.toFinset_card_le

/-- Linking one root under another preserves the invariant and merges exactly
the two classes. -/
theorem link_inv {ns : List Node} {p : Node → Node} (h : UFInv ns p)
    {ra rb : Node} (hra : isRoot p ra) (hrb : isRoot p rb) (hne : ra ≠ rb)
    (hma : ra ∈ ns) (hmb : rb ∈ ns) :
    UFInv ns (fun z => if z = ra then rb else p z) ∧
    (∀ u, rootOf ns (fun z => if z = ra then rb else p z) u =
      if rootOf ns p u = ra then rb else rootOf ns p u) := by
  have hrbra : rb ≠ ra := hne.symm
  have hqr := link_isRoot p ra rb hrbra
  have main : ∀ u, ∃ j, j ≤ ns.length ∧
      isRoot (fun z => if z = ra then rb else p z)
        (iterp (fun z => if z = ra then rb else p z) j u) ∧
      iterp (fun z => if z = ra then rb else p z) j u =
        (if rootOf ns p u = ra then rb else rootOf ns p u) := by
    intro u
    have hex : ∃ k, isRoot p (iterp p k u) := by
      obtain ⟨k, _, hk⟩ := h.reach u
      exact ⟨k, hk⟩
    have hfind := Nat.find_spec hex
    have hmin : ∀ j, j < Nat.find hex → ¬ isRoot p (iterp p j u) :=
      fun j hj => Nat.find_min hex hj
    have hkle : Nat.find hex ≤ ns.length := by
      obtain ⟨k0, hk0, hr0⟩ := h.reach u
      exact le_trans (Nat.find_min' hex hr0) hk0
    have hchain : ∀ i, i ≤ Nat.find hex →
        iterp (fun z => if z = ra then rb else p z) i u = iterp p i u := by
      intro i hi
      induction i with
      | zero => rfl
      | succ i ih2 =>
        rw [iterp_succ_right, iterp_succ_right, ih2 (by omega)]
        have hne2 : iterp p i u ≠ ra := by
          intro heq
          exact hmin i (by omega) (by rw [heq]; exact hra)
        simp [hne2]
    by_cases hcase : iterp p (Nat.find hex) u = ra
    · have humem : u ∈ ns := by
        by_contra hu
        have h0 : isRoot p u := h.outside u hu
        have hf0 : Nat.find hex = 0 := by
          have := Nat.find_min' hex (show isRoot p (iterp p 0 u) from h0)
          omega
        rw [hf0] at hcase
        have hua : u = ra := hcase
        exact hu (hua ▸ hma)
      have hlen : Nat.find hex + 1 ≤ ns.length := by
        have hnodup :
            ((List.range (Nat.find hex + 1)).map (fun i => iterp p i u)).Nodup := by
          refine List.Nodup.map_on ?_ (List.nodup_range _)
          intro i hi j hj hij
          rw [List.mem_range] at hi hj
          by_contra hne3
          rcases Nat.lt_or_ge i j with hlt | hge
          · exact chain_distinct hmin hfind i j hlt (by omega) hij
          · exact chain_distinct hmin hfind j i (by omega) (by omega) hij.symm
        have hsub : ∀ x,
            x ∈ (List.range (Nat.find hex + 1)).map (fun i => iterp p i u) → x ∈ ns := by
          intro x hx
          simp only [List.mem_map, List.mem_range] at hx
          obtain ⟨i, _, rfl⟩ := hx
          exact iterp_mem h humem i
        have := nodup_length_le hnodup hsub
        simpa using this
      refine ⟨Nat.find hex + 1, hlen, ?_, ?_⟩
      · rw [iterp_succ_right, hchain _ (le_refl _), hcase]
        rw [if_pos rfl]
        exact (hqr rb).2 ⟨hrb, hrbra⟩
      · rw [iterp_succ_right, hchain _ (le_refl _), hcase]
        rw [if_pos rfl]
        have hrou : rootOf ns p u = ra :=
          (rootOf_eq_of_reach hfind hkle).symm.trans hcase
        rw [if_pos hrou]
    · refine ⟨Nat.find hex, hkle, ?_, ?_⟩
      · rw [hchain _ (le_refl _)]
        exact (hqr _).2 ⟨hfind, hcase⟩
      · rw [hchain _ (le_refl _)]
        have hrou : rootOf ns p u = iterp p (Nat.find hex) u :=
          (rootOf_eq_of_reach hfind hkle).symm
        rw [if_neg (by rw [hrou]; exact hcase)]
        exact hrou.symm
  have hinv : UFInv ns (fun z => if z = ra then rb else p z) := by
    refine ⟨?_, ?_, ?_⟩
    · intro z hz
      by_cases hzr : z = ra
      · simpa [hzr] using hmb
      · simpa [hzr] using h.closed z hz
    · intro z hz
      have hzr : z ≠ ra := fun hh => hz (hh ▸ hma)
      simpa [hzr] using h.outside z hz
    · intro u
      obtain ⟨j, hj, hjr, _⟩ := main u
      exact ⟨j, hj, hjr⟩
  refine ⟨hinv, fun u => ?_⟩
  obtain ⟨j, hj, hjr, hje⟩ := main u
  rw [← rootOf_eq_of_reach hjr hj]
  exact hje

/-!
Structural lemmas about `edgesGo`, towards the edge-insertion permutation.
-/

theorem aset_eq_append {α β : Type} [DecidableEq α] {l : List (α × β)} {k : α}
    (x : β) (h : k ∉ keysOf l) : aset l k x = l ++ [(k, x)] := by
  induction l with
  | nil => rfl
  | cons hd tl ih =>
    obtain ⟨w, y⟩ := hd
    simp only [keysOf, List.map_cons, List.mem_cons] at h
    push_neg at h
    have hwk : w ≠ k := fun hh => h.1 hh.symm
    simp only [aset, if_neg hwk, List.cons_append]
    rw [ih]
    simp only [keysOf]
    exact h.2

theorem aupdate_append_right {α β : Type} [DecidableEq α] {l1 : List (α × β)}
    (l2 : List (α × β)) {k : α} (f : β → β) (h : k ∉ keysOf l1) :
    aupdate (l1 ++ l2) k f = l1 ++ aupdate l2 k f := by
  induction l1 with
  | nil => rfl
  | cons hd tl ih =>
    obtain ⟨w, y⟩ := hd
    simp only [keysOf, List.map_cons, List.mem_cons] at h
    push_neg at h
    have hwk : w ≠ k := fun hh => h.1 hh.symm
    simp only [List.cons_append, aupdate, if_neg hwk]
    exact congrArg _ (ih h.2)

theorem aupdate_split {α β : Type} [DecidableEq α] {l1 : List (α × β)}
    (l2 : List (α × β)) {k : α} (y : β) (f : β → β) (h : k ∉ keysOf l1) :
    aupdate (l1 ++ (k, y) :: l2) k f = l1 ++ (k, f y) :: l2 := by
  rw [aupdate_append_right _ f h]
  simp [aupdate]

theorem addNode_of_mem {adj : List (Node × List (Node × EdgeAttrs))} {u : Node}
    (h : u ∈ keysOf adj) : addNode adj u = adj := by
  unfold addNode
  cases hl : alookup adj u with
  | some nbrs => rfl
  | none => exact absurd ((alookup_eq_none_iff adj u).1 hl) (by simpa using h)

theorem addNode_of_not_mem {adj : List (Node × List (Node × EdgeAttrs))} {u : Node}
    (h : u ∉ keysOf adj) : addNode adj u = adj ++ [(u, [])] := by
  unfold addNode
  rw [(alookup_eq_none_iff adj u).2 h]

theorem alookup_some_split {α β : Type} [DecidableEq α] {l : List (α × β)} {a : α}
    {x : β} (h : alookup l a = some x) :
    ∃ l1 l2, l = l1 ++ (a, x) :: l2 ∧ a ∉ keysOf l1 := by
  induction l with
  | nil => simp [alookup] at h
  | cons hd tl ih =>
    obtain ⟨w, y⟩ := hd
    by_cases hw : w = a
    · subst hw
      simp only [alookup, eq_self_iff_true, if_true, Option.some.injEq] at h
      subst h
      exact ⟨[], tl, rfl, by simp [keysOf]⟩
    · simp only [alookup, if_neg hw] at h
      obtain ⟨l1, l2, heq, hmem⟩ := ih h
      refine ⟨(w, y) :: l1, l2, by rw [heq]; rfl, ?_⟩
      simp only [keysOf, List.map_cons, List.mem_cons]
      push_neg
      exact ⟨fun hh => hw hh.symm, by simpa [keysOf] using hmem⟩

/-- Both keys present: locate the two entries in order (either orientation). -/
theorem split_two {A : List (Node × List (Node × EdgeAttrs))} {u v : Node}
    (hne : u ≠ v) (hu : u ∈ keysOf A) (hv : v ∈ keysOf A) :
    (∃ l1 nu m1 nv m2, A = l1 ++ (u, nu) :: m1 ++ (v, nv) :: m2) ∨
    (∃ l1 nv m1 nu m2, A = l1 ++ (v, nv) :: m1 ++ (u, nu) :: m2) := by
  induction A with
  | nil => simp [keysOf] at hu
  | cons hd rest ih =>
    obtain ⟨w, nw⟩ := hd
    by_cases hwu : w = u
    · subst hwu
      have hvr : v ∈ keysOf rest := by
        simp only [keysOf, List.map_cons, List.mem_cons] at hv
        rcases hv with hv | hv
        · exact absurd hv.symm hne
        · exact hv
      have : (alookup rest v).isSome := (alookup_isSome_iff rest v).2 hvr
      obtain ⟨nv, hnv⟩ := Option.isSome_iff_exists.1 this
      obtain ⟨m1, m2, heq, _⟩ := alookup_some_split hnv
      exact Or.inl ⟨[], nw, m1, nv, m2, by rw [heq]; rfl⟩
    · by_cases hwv : w = v
      · subst hwv
        have hur : u ∈ keysOf rest := by
          simp only [keysOf, List.map_cons, List.mem_cons] at hu
          rcases hu with hu | hu
          · exact absurd hu hne
          · exact hu
        have : (alookup rest u).isSome := (alookup_isSome_iff rest u).2 hur
        obtain ⟨nu, hnu⟩ := Option.isSome_iff_exists.1 this
        obtain ⟨m1, m2, heq, _⟩ := alookup_some_split hnu
        exact Or.inr ⟨[], nw, m1, nu, m2, by rw [heq]; rfl⟩
      · have hur : u ∈ keysOf rest := by
          simp only [keysOf, List.map_cons, List.mem_cons] at hu
          tauto
        have hvr : v ∈ keysOf rest := by
          simp only [keysOf, List.map_cons, List.mem_cons] at hv
          tauto
        rcases ih hur hvr with ⟨l1, nu, m1, nv, m2, heq⟩ | ⟨l1, nv, m1, nu, m2, heq⟩
        · exact Or.inl ⟨(w, nw) :: l1, nu, m1, nv, m2, by rw [heq]; rfl⟩
        · exact Or.inr ⟨(w, nw) :: l1, nv, m1, nu, m2, by rw [heq]; rfl⟩

theorem edgesGo_cons (w : Node) (nw : List (Node × EdgeAttrs))
    (rest : List (Node × List (Node × EdgeAttrs))) (seen : List Node) :
    edgesGo ((w, nw) :: rest) seen =
      (nw.filter (fun vb => decide (vb.1 ∉ seen))).map (fun vb => (w, vb.1, vb.2)) ++
      edgesGo rest (w :: seen) := rfl

theorem edgesGo_seen_congr (l : List (Node × List (Node × EdgeAttrs)))
    {s1 s2 : List Node} (h : ∀ x, x ∈ s1 ↔ x ∈ s2) : edgesGo l s1 = edgesGo l s2 := by
  induction l generalizing s1 s2 with
  | nil => rfl
  | cons hd tl ih =>
    obtain ⟨u, nbrs⟩ := hd
    rw [edgesGo_cons, edgesGo_cons]
    have hfil : nbrs.filter (fun vb => decide (vb.1 ∉ s1)) =
        nbrs.filter (fun vb => decide (vb.1 ∉ s2)) :=
      List.filter_congr (fun a _ => by simp [h a.1])
    have h2 : ∀ x : Node, x ∈ u :: s1 ↔ x ∈ u :: s2 := fun x => by simp [h x]
    rw [hfil, ih h2]

theorem edgesGo_append (l1 l2 : List (Node × List (Node × EdgeAttrs)))
    (seen : List Node) :
    edgesGo (l1 ++ l2) seen =
      edgesGo l1 seen ++ edgesGo l2 (l1.reverse.map Prod.fst ++ seen) := by
  induction l1 generalizing seen with
  | nil => rfl
  | cons hd tl ih =>
    obtain ⟨u, nbrs⟩ := hd
    rw [List.cons_append, edgesGo_cons, edgesGo_cons, ih (u :: seen),
      List.append_assoc]
    congr 1
    congr 1
    apply edgesGo_seen_congr
    intro x
    simp only [List.reverse_cons, List.map_append, List.mem_append, List.map_cons,
      List.mem_cons, List.map_nil, List.mem_singleton, List.not_mem_nil, false_or]
    tauto

theorem perm_insert_shape {α : Type} (E1 Bw M : List α) (x : α) :
    (E1 ++ (Bw ++ x :: M)).Perm (x :: (E1 ++ (Bw ++ M))) := by
  have h1 : E1 ++ (Bw ++ x :: M) = (E1 ++ Bw) ++ x :: M := by
    simp [List.append_assoc]
  have h2 : x :: (E1 ++ (Bw ++ M)) = x :: ((E1 ++ Bw) ++ M) := by
    simp [List.append_assoc]
  rw [h1, h2]
  exact List.perm_middle

theorem edgesGo_insert_pair {l1 m1 m2 : List (Node × List (Node × EdgeAttrs))}
    {w z : Node} {nw nz : List (Node × EdgeAttrs)} (a : EdgeAttrs)
    (hz : z ∉ keysOf l1) :
    (edgesGo (l1 ++ (w, nw ++ [(z, a)]) :: (m1 ++ (z, nz ++ [(w, a)]) :: m2)) []).Perm
      ((w, z, a) :: edgesGo (l1 ++ (w, nw) :: (m1 ++ (z, nz) :: m2)) []) := by
  have hzmem : z ∉ List.map Prod.fst l1.reverse := by
    rw [List.map_reverse, List.mem_reverse]
    simpa [keysOf] using hz
  have hfz : List.filter (fun vb => decide (vb.1 ∉ List.map Prod.fst l1.reverse))
      ([(z, a)] : List (Node × EdgeAttrs)) = [(z, a)] := by
    rw [List.filter_cons, if_pos (decide_eq_true hzmem)]
    rfl
  have hfw : List.filter (fun vb => decide (vb.1 ∉ List.map Prod.fst m1.reverse ++
      w :: List.map Prod.fst l1.reverse)) ([(w, a)] : List (Node × EdgeAttrs)) = [] := by
    simp
  simp only [edgesGo_append, edgesGo_cons, List.filter_append, List.map_append,
    List.append_nil]
  simp only [hfz, hfw]
  simp only [List.map_cons, List.map_nil, List.nil_append, List.append_nil,
    List.append_assoc, List.singleton_append, List.cons_append]
  exact perm_insert_shape _ _ _ _

theorem edgesGo_nil (seen : List Node) : edgesGo [] seen = [] := rfl

theorem edgesGo_insert_tail {l1 l2 : List (Node × List (Node × EdgeAttrs))}
    {w z : Node} {nw : List (Node × EdgeAttrs)} (a : EdgeAttrs)
    (hz : z ∉ keysOf l1) :
    (edgesGo (l1 ++ (w, nw ++ [(z, a)]) :: (l2 ++ [(z, [(w, a)])])) []).Perm
      ((w, z, a) :: edgesGo (l1 ++ (w, nw) :: l2) []) := by
  have hzmem : z ∉ List.map Prod.fst l1.reverse := by
    rw [List.map_reverse, List.mem_reverse]
    simpa [keysOf] using hz
  have hfz : List.filter (fun vb => decide (vb.1 ∉ List.map Prod.fst l1.reverse))
      ([(z, a)] : List (Node × EdgeAttrs)) = [(z, a)] := by
    rw [List.filter_cons, if_pos (decide_eq_true hzmem)]
    rfl
  have hfw : List.filter (fun vb => decide (vb.1 ∉ List.map Prod.fst l2.reverse ++
      w :: List.map Prod.fst l1.reverse)) ([(w, a)] : List (Node × EdgeAttrs)) = [] := by
    simp
  simp only [edgesGo_append, edgesGo_cons, edgesGo_nil, List.filter_append,
    List.map_append, List.append_nil]
  simp only [hfz, hfw]
  simp only [List.map_cons, List.map_nil, List.nil_append, List.append_nil,
    List.append_assoc, List.singleton_append, List.cons_append]
  exact perm_insert_shape _ _ _ _

theorem edgesGo_insert_new2 {A : List (Node × List (Node × EdgeAttrs))} {u v : Node}
    (a : EdgeAttrs) (hv : v ∉ keysOf A) :
    (edgesGo (A ++ [(u, [(v, a)]), (v, [(u, a)])]) []).Perm
      ((u, v, a) :: edgesGo A []) := by
  have hvmem : v ∉ List.map Prod.fst A.reverse := by
    rw [List.map_reverse, List.mem_reverse]
    simpa [keysOf] using hv
  have hfv : List.filter (fun vb => decide (vb.1 ∉ List.map Prod.fst A.reverse))
      ([(v, a)] : List (Node × EdgeAttrs)) = [(v, a)] := by
    rw [List.filter_cons, if_pos (decide_eq_true hvmem)]
    rfl
  have hfu : List.filter (fun vb => decide (vb.1 ∉
      u :: List.map Prod.fst A.reverse)) ([(u, a)] : List (Node × EdgeAttrs)) = [] := by
    simp
  simp only [edgesGo_append, edgesGo_cons, edgesGo_nil, List.filter_append,
    List.map_append, List.append_nil]
  simp only [hfv, hfu]
  simp only [List.map_cons, List.map_nil, List.nil_append, List.append_nil,
    List.append_assoc, List.singleton_append, List.cons_append]
  exact List.perm_append_singleton _ _

theorem nodup_middle_not_mem {α : Type} {xs ys : List α} {y : α}
    (h : (xs ++ y :: ys).Nodup) : y ∉ xs ∧ y ∉ ys := by
  have h2 : (y :: (xs ++ ys)).Nodup := (List.perm_middle.nodup_iff).1 h
  rw [List.nodup_cons, List.mem_append] at h2
  push_neg at h2
  exact h2.1

theorem alookup_split_self {α β : Type} [DecidableEq α] (l1 l2 : List (α × β))
    (k : α) (x : β) (h : k ∉ keysOf l1) : alookup (l1 ++ (k, x) :: l2) k = some x := by
  rw [alookup_append, (alookup_eq_none_iff l1 k).2 h]
  simp [alookup]

/-- Adding a genuinely new edge inserts exactly one record into
`G.edges(data=True)` (in one of its two orientations). -/
theorem edgesData_add_edge_perm {T : Graph} (h : GWF T) {u v : Node} (hne : u ≠ v)
    (hnew : lookupNbr T u v = none) (a : EdgeAttrs) :
    (edgesData (add_edge T u v a)).Perm ((u, v, a) :: edgesData T) ∨
    (edgesData (add_edge T u v a)).Perm ((v, u, a) :: edgesData T) := by
  have hnew2 : lookupNbr T v u = none := by
    rw [← h.symm u v]
    exact hnew
  have hadj_def : (add_edge T u v a).adj =
      aupdate (aupdate (addNode (addNode T.adj u) v) u (fun nbrs => aset nbrs v a)) v
        (fun nbrs => aset nbrs u a) := rfl
  by_cases hu : u ∈ keysOf T.adj <;> by_cases hv : v ∈ keysOf T.adj
  · rcases split_two hne hu hv with ⟨l1, nu, m1, nv, m2, heq⟩ |
      ⟨l1, nv, m1, nu, m2, heq⟩
    · left
      have heq2 : T.adj = l1 ++ (u, nu) :: (m1 ++ (v, nv) :: m2) := by
        rw [heq]
        simp
      clear heq
      have hknd : (keysOf l1 ++ u :: (keysOf m1 ++ v :: keysOf m2)).Nodup := by
        have hthis := h.knodup
        unfold nodesOf at hthis
        rw [heq2] at hthis
        simpa [keysOf] using hthis
      have hul1 : u ∉ keysOf l1 := (nodup_middle_not_mem hknd).1
      have hknd2 : ((keysOf l1 ++ u :: keysOf m1) ++ v :: keysOf m2).Nodup := by
        have hre : (keysOf l1 ++ u :: keysOf m1) ++ v :: keysOf m2 =
            keysOf l1 ++ u :: (keysOf m1 ++ v :: keysOf m2) := by simp
        rw [hre]
        exact hknd
      have hvl1 : v ∉ keysOf l1 := fun hm =>
        (nodup_middle_not_mem hknd2).1 (List.mem_append.2 (Or.inl hm))
      have hvm1 : v ∉ keysOf m1 := fun hm =>
        (nodup_middle_not_mem hknd2).1 (by simp [hm])
      have hnu_lookup : alookup T.adj u = some nu := by
        rw [heq2]
        exact alookup_split_self _ _ _ _ hul1
      have hnv_lookup : alookup T.adj v = some nv := by
        rw [heq2]
        rw [alookup_append, (alookup_eq_none_iff l1 v).2 hvl1]
        simp only [alookup, if_neg hne]
        exact alookup_split_self _ _ _ _ hvm1
      have hvnu : v ∉ keysOf nu := by
        apply (alookup_eq_none_iff nu v).1
        rw [lookupNbr_def, hnu_lookup] at hnew
        exact hnew
      have hunv : u ∉ keysOf nv := by
        apply (alookup_eq_none_iff nv u).1
        rw [lookupNbr_def, hnv_lookup] at hnew2
        exact hnew2
      have hadj : (add_edge T u v a).adj =
          l1 ++ (u, nu ++ [(v, a)]) :: (m1 ++ (v, nv ++ [(u, a)]) :: m2) := by
        rw [hadj_def, addNode_of_mem hu, addNode_of_mem hv, heq2,
          aupdate_split _ _ _ hul1]
        have hassoc : l1 ++ (u, aset nu v a) :: (m1 ++ (v, nv) :: m2) =
            (l1 ++ (u, aset nu v a) :: m1) ++ (v, nv) :: m2 := by
          simp
        rw [hassoc, aupdate_split]
        · rw [aset_eq_append a hvnu, aset_eq_append a hunv]
          simp
        · simp only [keysOf, List.map_append, List.map_cons, List.mem_append,
            List.mem_cons]
          push_neg
          exact ⟨by simpa [keysOf] using hvl1, hne.symm, by simpa [keysOf] using hvm1⟩
      show (edgesGo (add_edge T u v a).adj []).Perm ((u, v, a) :: edgesGo T.adj [])
      rw [hadj, heq2]
      exact edgesGo_insert_pair a hvl1
    · right
      have heq2 : T.adj = l1 ++ (v, nv) :: (m1 ++ (u, nu) :: m2) := by
        rw [heq]
        simp
      clear heq
      have hknd : (keysOf l1 ++ v :: (keysOf m1 ++ u :: keysOf m2)).Nodup := by
        have hthis := h.knodup
        unfold nodesOf at hthis
        rw [heq2] at hthis
        simpa [keysOf] using hthis
      have hvl1 : v ∉ keysOf l1 := (nodup_middle_not_mem hknd).1
      have hknd2 : ((keysOf l1 ++ v :: keysOf m1) ++ u :: keysOf m2).Nodup := by
        have hre : (keysOf l1 ++ v :: keysOf m1) ++ u :: keysOf m2 =
            keysOf l1 ++ v :: (keysOf m1 ++ u :: keysOf m2) := by simp
        rw [hre]
        exact hknd
      have hul1 : u ∉ keysOf l1 := fun hm =>
        (nodup_middle_not_mem hknd2).1 (List.mem_append.2 (Or.inl hm))
      have hum1 : u ∉ keysOf m1 := fun hm =>
        (nodup_middle_not_mem hknd2).1 (by simp [hm])
      have hnv_lookup : alookup T.adj v = some nv := by
        rw [heq2]
        exact alookup_split_self _ _ _ _ hvl1
      have hnu_lookup : alookup T.adj u = some nu := by
        rw [heq2]
        rw [alookup_append, (alookup_eq_none_iff l1 u).2 hul1]
        simp only [alookup, if_neg hne.symm]
        exact alookup_split_self _ _ _ _ hum1
      have hvnu : v ∉ keysOf nu := by
        apply (alookup_eq_none_iff nu v).1
        rw [lookupNbr_def, hnu_lookup] at hnew
        exact hnew
      have hunv : u ∉ keysOf nv := by
        apply (alookup_eq_none_iff nv u).1
        rw [lookupNbr_def, hnv_lookup] at hnew2
        exact hnew2
      have hadj : (add_edge T u v a).adj =
          l1 ++ (v, nv ++ [(u, a)]) :: (m1 ++ (u, nu ++ [(v, a)]) :: m2) := by
        rw [hadj_def, addNode_of_mem hu, addNode_of_mem hv, heq2]
        have hassoc : l1 ++ (v, nv) :: (m1 ++ (u, nu) :: m2) =
            (l1 ++ (v, nv) :: m1) ++ (u, nu) :: m2 := by
          simp
        rw [hassoc, aupdate_split]
        · have hassoc2 : (l1 ++ (v, nv) :: m1) ++ (u, aset nu v a) :: m2 =
              l1 ++ (v, nv) :: (m1 ++ (u, aset nu v a) :: m2) := by
            simp
          rw [hassoc2, aupdate_split _ _ _ hvl1,
            aset_eq_append a hvnu, aset_eq_append a hunv]
        · simp only [keysOf, List.map_append, List.map_cons, List.mem_append,
            List.mem_cons]
          push_neg
          exact ⟨by simpa [keysOf] using hul1, hne, by simpa [keysOf] using hum1⟩
      show (edgesGo (add_edge T u v a).adj []).Perm ((v, u, a) :: edgesGo T.adj [])
      rw [hadj, heq2]
      exact edgesGo_insert_pair a hul1
  · -- u present, v new
    left
    have hnu_some : (alookup T.adj u).isSome := (alookup_isSome_iff _ _).2 hu
    obtain ⟨nu, hnu⟩ := Option.isSome_iff_exists.1 hnu_some
    obtain ⟨l1, l2, heq, hul1⟩ := alookup_some_split hnu
    have hvnu : v ∉ keysOf nu := by
      apply (alookup_eq_none_iff nu v).1
      rw [lookupNbr_def, hnu] at hnew
      exact hnew
    have hkeys : keysOf T.adj = keysOf l1 ++ u :: keysOf l2 := by
      rw [heq]
      simp [keysOf]
    have hvl1 : v ∉ keysOf l1 := fun hm =>
      hv (hkeys ▸ List.mem_append.2 (Or.inl hm))
    have hvl2 : v ∉ keysOf l2 := fun hm =>
      hv (hkeys ▸ List.mem_append.2 (Or.inr (List.mem_cons.2 (Or.inr hm))))
    have hadj : (add_edge T u v a).adj =
        l1 ++ (u, nu ++ [(v, a)]) :: (l2 ++ [(v, [(u, a)])]) := by
      rw [hadj_def, addNode_of_mem hu, addNode_of_not_mem hv, heq]
      have hassoc : (l1 ++ (u, nu) :: l2) ++ [(v, [])] =
          l1 ++ (u, nu) :: (l2 ++ [(v, [])]) := by
        simp
      rw [hassoc, aupdate_split _ _ _ hul1]
      have hassoc2 : l1 ++ (u, aset nu v a) :: (l2 ++ [(v, [])]) =
          (l1 ++ (u, aset nu v a) :: l2) ++ [(v, [])] := by
        simp
      rw [hassoc2, aupdate_append_right]
      · simp only [aupdate, if_pos rfl]
        rw [aset_eq_append a hvnu]
        simp [aset]
      · simp only [keysOf, List.map_append, List.map_cons, List.mem_append,
          List.mem_cons]
        push_neg
        exact ⟨by simpa [keysOf] using hvl1, hne.symm, by simpa [keysOf] using hvl2⟩
    show (edgesGo (add_edge T u v a).adj []).Perm ((u, v, a) :: edgesGo T.adj [])
    rw [hadj, heq]
    exact edgesGo_insert_tail a hvl1
  · -- u new, v present
    right
    have hnv_some : (alookup T.adj v).isSome := (alookup_isSome_iff _ _).2 hv
    obtain ⟨nv, hnv⟩ := Option.isSome_iff_exists.1 hnv_some
    obtain ⟨l1, l2, heq, hvl1⟩ := alookup_some_split hnv
    have hunv : u ∉ keysOf nv := by
      apply (alookup_eq_none_iff nv u).1
      rw [lookupNbr_def, hnv] at hnew2
      exact hnew2
    have hkeys : keysOf T.adj = keysOf l1 ++ v :: keysOf l2 := by
      rw [heq]
      simp [keysOf]
    have hul1 : u ∉ keysOf l1 := fun hm =>
      hu (hkeys ▸ List.mem_append.2 (Or.inl hm))
    have hvmem1 : v ∈ keysOf (T.adj ++ [(u, [])]) := by
      rw [keysOf_append]
      exact List.mem_append.2 (Or.inl hv)
    have hadj : (add_edge T u v a).adj =
        l1 ++ (v, nv ++ [(u, a)]) :: (l2 ++ [(u, [(v, a)])]) := by
      rw [hadj_def, addNode_of_not_mem hu, addNode_of_mem hvmem1]
      rw [aupdate_append_right _ _ hu]
      have hstep : aupdate [(u, [])] u (fun nbrs => aset nbrs v a) = [(u, [(v, a)])] := by
        simp [aupdate, aset]
      rw [hstep, heq]
      have hassoc : (l1 ++ (v, nv) :: l2) ++ [(u, [(v, a)])] =
          l1 ++ (v, nv) :: (l2 ++ [(u, [(v, a)])]) := by
        simp
      rw [hassoc, aupdate_split _ _ _ hvl1, aset_eq_append a hunv]
    show (edgesGo (add_edge T u v a).adj []).Perm ((v, u, a) :: edgesGo T.adj [])
    rw [hadj, heq]
    exact edgesGo_insert_tail a hul1
  · -- both new
    left
    have hadj : (add_edge T u v a).adj =
        T.adj ++ [(u, [(v, a)]), (v, [(u, a)])] := by
      rw [hadj_def, addNode_of_not_mem hu]
      have hvnot : v ∉ keysOf (T.adj ++ [(u, [])]) := by
        rw [keysOf_append]
        simp only [List.mem_append, keysOf, List.map_cons, List.map_nil,
          List.mem_cons, List.not_mem_nil]
        push_neg
        exact ⟨by simpa [keysOf] using hv, ⟨hne.symm, fun hh => hh⟩⟩
      rw [addNode_of_not_mem hvnot]
      have hassoc : (T.adj ++ [(u, [])]) ++ [(v, [])] = T.adj ++ [(u, []), (v, [])] := by
        simp
      rw [hassoc, aupdate_append_right _ _ hu]
      have hstep1 : aupdate [(u, []), (v, [])] u (fun nbrs => aset nbrs v a) =
          [(u, [(v, a)]), (v, [])] := by
        simp [aupdate, aset]
      rw [hstep1, aupdate_append_right _ _ hv]
      have hstep2 : aupdate [(u, [(v, a)]), (v, [])] v (fun nbrs => aset nbrs u a) =
          [(u, [(v, a)]), (v, [(u, a)])] := by
        simp [aupdate, aset, hne]
      rw [hstep2]
    show (edgesGo (add_edge T u v a).adj []).Perm ((u, v, a) :: edgesGo T.adj [])
    rw [hadj]
    exact edgesGo_insert_new2 a hv

theorem mem_edgesGo_of_split {l1 l2 : List (Node × List (Node × EdgeAttrs))}
    {w : Node} {nw : List (Node × EdgeAttrs)} {z : Node} {az : EdgeAttrs}
    (hmem : (z, az) ∈ nw) (hz : z ∉ keysOf l1) :
    (w, z, az) ∈ edgesGo (l1 ++ (w, nw) :: l2) [] := by
  rw [edgesGo_append, edgesGo_cons]
  refine List.mem_append.2 (Or.inr (List.mem_append.2 (Or.inl ?_)))
  refine List.mem_map.2 ⟨(z, az), ?_, rfl⟩
  refine List.mem_filter.2 ⟨hmem, ?_⟩
  apply decide_eq_true
  simp only [List.append_nil, List.map_reverse, List.mem_reverse]
  simpa [keysOf] using hz

theorem mem_edgesGo_imp {l : List (Node × List (Node × EdgeAttrs))} {seen : List Node}
    {e : EdgeT} (he : e ∈ edgesGo l seen) :
    ∃ nw, (e.1, nw) ∈ l ∧ (e.2.1, e.2.2) ∈ nw := by
  induction l generalizing seen with
  | nil => simp [edgesGo_nil] at he
  | cons hd tl ih =>
    obtain ⟨w, nw⟩ := hd
    rw [edgesGo_cons] at he
    rcases List.mem_append.1 he with he1 | he2
    · obtain ⟨vb, hvb, hmap⟩ := List.mem_map.1 he1
      refine ⟨nw, ?_, ?_⟩
      · rw [← hmap]
        exact List.mem_cons_self _ _
      · rw [← hmap]
        exact (List.mem_filter.1 hvb).1
    · obtain ⟨nw2, hmem, hmem2⟩ := ih he2
      exact ⟨nw2, List.mem_cons_of_mem _ hmem, hmem2⟩

theorem mem_edgesData_lookup {G : Graph} (h : GWF G) {e : EdgeT}
    (he : e ∈ edgesData G) : lookupNbr G e.1 e.2.1 = some e.2.2 := by
  obtain ⟨nw, hl, hmem⟩ := mem_edgesGo_imp he
  have h1 : alookup G.adj e.1 = some nw := alookup_eq_of_mem_nodup h.knodup hl
  have h2 : alookup nw e.2.1 = some e.2.2 :=
    alookup_eq_of_mem_nodup (h.nbrnodup _ _ h1) hmem
  rw [lookupNbr_def, h1]
  exact h2

theorem mem_edgesData_endpoints {G : Graph} (h : GWF G) {e : EdgeT}
    (he : e ∈ edgesData G) : e.1 ∈ nodesOf G ∧ e.2.1 ∈ nodesOf G := by
  have h1 := mem_edgesData_lookup h he
  constructor
  · rw [lookupNbr_def] at h1
    cases hx : alookup G.adj e.1 with
    | none => rw [hx] at h1; simp at h1
    | some nx => exact (alookup_isSome_iff _ _).1 (by simp [hx])
  · have h2 : lookupNbr G e.2.1 e.1 = some e.2.2 := by
      rw [← h.symm]
      exact h1
    rw [lookupNbr_def] at h2
    cases hx : alookup G.adj e.2.1 with
    | none => rw [hx] at h2; simp at h2
    | some nx => exact (alookup_isSome_iff _ _).1 (by simp [hx])

theorem lookup_mem_edgesData {T : Graph} (h : GWF T) {u v : Node} {a2 : EdgeAttrs}
    (hl : lookupNbr T u v = some a2) :
    (u, v, a2) ∈ edgesData T ∨ (v, u, a2) ∈ edgesData T := by
  rw [lookupNbr_def] at hl
  cases hnu : alookup T.adj u with
  | none =>
    rw [hnu] at hl
    simp at hl
  | some nu =>
    rw [hnu] at hl
    simp only [Option.some_bind] at hl
    obtain ⟨l1, l2, heq, hul1⟩ := alookup_some_split hnu
    by_cases hvl1 : v ∈ keysOf l1
    · right
      have hv_some : (alookup l1 v).isSome := (alookup_isSome_iff _ _).2 hvl1
      obtain ⟨nv, hnv⟩ := Option.isSome_iff_exists.1 hv_some
      obtain ⟨m1, m1b, heq1, hvm1⟩ := alookup_some_split hnv
      have heq2 : T.adj = m1 ++ (v, nv) :: (m1b ++ (u, nu) :: l2) := by
        rw [heq, heq1]
        simp
      have hnv2 : alookup T.adj v = some nv := by
        rw [heq2]
        exact alookup_split_self _ _ _ _ hvm1
      have hsym : lookupNbr T v u = some a2 := by
        rw [← h.symm, lookupNbr_def, hnu]
        exact hl
      have hunv : (u, a2) ∈ nv := by
        rw [lookupNbr_def, hnv2] at hsym
        simp only [Option.some_bind] at hsym
        exact mem_of_alookup_eq_some hsym
      have hknd : (keysOf m1 ++ v :: (keysOf m1b ++ u :: keysOf l2)).Nodup := by
        have hthis := h.knodup
        unfold nodesOf at hthis
        rw [heq2] at hthis
        simpa [keysOf] using hthis
      have hum1 : u ∉ keysOf m1 := by
        intro hm
        have hre : keysOf m1 ++ v :: (keysOf m1b ++ u :: keysOf l2) =
            (keysOf m1 ++ v :: keysOf m1b) ++ u :: keysOf l2 := by
          simp
        rw [hre] at hknd
        exact (nodup_middle_not_mem hknd).1 (List.mem_append.2 (Or.inl hm))
      show (v, u, a2) ∈ edgesGo T.adj []
      rw [heq2]
      exact mem_edgesGo_of_split hunv hum1
    · left
      show (u, v, a2) ∈ edgesGo T.adj []
      rw [heq]
      exact mem_edgesGo_of_split (mem_of_alookup_eq_some hl) hvl1

/-!
Counting union-find roots, and the reference component representatives.
-/

def rootsCount (ns : List Node) (p : Node → Node) : Nat :=
  (ns.filter (fun u => decide (isRoot p u))).length

theorem rootsCount_id (ns : List Node) : rootsCount ns (fun x => x) = ns.length := by
  simp [rootsCount, isRoot]

theorem rootsCount_congr {ns : List Node} {p q : Node → Node}
    (h : ∀ x, isRoot q x ↔ isRoot p x) : rootsCount ns q = rootsCount ns p := by
  unfold rootsCount
  congr 1
  apply List.filter_congr
  intro a _
  exact decide_eq_decide.2 (h a)

theorem count_filter_update {ns : List Node} (hnd : ns.Nodup) {f g : Node → Bool}
    {a : Node} (ha : a ∈ ns) (hfa : f a = true) (hga : g a = false)
    (hfg : ∀ x, x ≠ a → g x = f x) :
    (ns.filter g).length + 1 = (ns.filter f).length := by
  induction ns with
  | nil => simp at ha
  | cons b rest ih =>
    rw [List.nodup_cons] at hnd
    rcases List.mem_cons.1 ha with rfl | ha2
    · have hrest : rest.filter g = rest.filter f :=
        List.filter_congr (fun x hx => hfg x (fun hh => hnd.1 (hh ▸ hx)))
      rw [List.filter_cons, List.filter_cons, hfa, hga]
      simp [hrest]
    · have hba : b ≠ a := fun hh => hnd.1 (hh ▸ ha2)
      rw [List.filter_cons, List.filter_cons, hfg b hba]
      cases hfb : f b <;> simp [ih hnd.2 ha2]

theorem rootsCount_link {ns : List Node} (hnd : ns.Nodup) {p : Node → Node}
    {ra rb : Node} (hma : ra ∈ ns) (hra : isRoot p ra) (hrb : rb ≠ ra) :
    rootsCount ns (fun z => if z = ra then rb else p z) + 1 = rootsCount ns p := by
  apply count_filter_update hnd hma
  · exact decide_eq_true hra
  · apply decide_eq_false
    show ¬ (if ra = ra then rb else p ra) = ra
    simp [hrb]
  · intro x hx
    apply decide_eq_decide.2
    unfold isRoot
    simp [hx]

/-- `r` is a representative map for the components generated by `E`:
its kernel is connectivity, it is idempotent, and it stays in the node list. -/
structure RepSpec (ns : List Node) (E : List (Node × Node)) (r : Node → Node) : Prop where
  ker : ∀ x y, r x = r y ↔ Conn E x y
  idem : ∀ x, r (r x) = r x
  closed : ∀ x, x ∈ ns → r x ∈ ns

theorem repSpec_nil (ns : List Node) : RepSpec ns [] (fun x => x) := by
  refine ⟨fun x y => (conn_nil_iff x y).symm, fun x => rfl, fun x hx => hx⟩

theorem repSpec_step {ns : List Node} {E : List (Node × Node)} {r : Node → Node}
    (h : RepSpec ns E r) {a b : Node} (hB : b ∈ ns) :
    RepSpec ns (E ++ [(a, b)]) (mergeStep r (a, b)) := by
  refine ⟨?_, ?_, ?_⟩
  · intro x y
    have hconn : Conn (E ++ [(a, b)]) x y ↔ Conn ((a, b) :: E) x y :=
      conn_congr (fun e => by simp [or_comm]) x y
    rw [hconn, conn_cons_iff, ← h.ker x y, ← h.ker x a, ← h.ker b y,
      ← h.ker x b, ← h.ker a y]
    show (if r x = r a then r b else r x) = (if r y = r a then r b else r y) ↔ _
    constructor
    · intro hl
      by_cases hxa : r x = r a
      · by_cases hya : r y = r a
        · exact Or.inl (hxa.trans hya.symm)
        · rw [if_pos hxa, if_neg hya] at hl
          exact Or.inr (Or.inl ⟨hxa, hl⟩)
      · by_cases hya : r y = r a
        · rw [if_neg hxa, if_pos hya] at hl
          exact Or.inr (Or.inr ⟨hl, hya.symm⟩)
        · rw [if_neg hxa, if_neg hya] at hl
          exact Or.inl hl
    · intro hr2
      rcases hr2 with hh | ⟨h1, h2⟩ | ⟨h1, h2⟩
      · by_cases hxa : r x = r a
        · rw [if_pos hxa, if_pos (hh.symm.trans hxa)]
        · rw [if_neg hxa, if_neg (fun hc => hxa (hh.trans hc))]
          exact hh
      · rw [if_pos h1]
        by_cases hya : r y = r a
        · rw [if_pos hya]
        · rw [if_neg hya]
          exact h2
      · by_cases hxa : r x = r a
        · rw [if_pos hxa, if_pos h2.symm]
        · rw [if_neg hxa, if_pos h2.symm]
          exact h1
  · intro x
    show mergeStep r (a, b) (if r x = r a then r b else r x) = _
    unfold mergeStep
    by_cases hxa : r x = r a
    · rw [if_pos hxa]
      by_cases hba : r b = r a
      · rw [if_pos (by rw [h.idem b]; exact hba)]
      · rw [if_neg (by rw [h.idem b]; exact hba), h.idem b]
    · rw [if_neg hxa, if_neg (by rw [h.idem x]; exact hxa), h.idem x]
  · intro x hx
    show (if r x = r a then r b else r x) ∈ ns
    by_cases hxa : r x = r a
    · rw [if_pos hxa]
      exact h.closed b hB
    · rw [if_neg hxa]
      exact h.closed x hx

theorem repFold_spec_aux (ns : List Node) (E : List (Node × Node)) :
    ∀ (E0 : List (Node × Node)) (r : Node → Node),
      RepSpec ns E0 r → (∀ e, e ∈ E → e.2 ∈ ns) →
      RepSpec ns (E0 ++ E) (E.foldl mergeStep r) := by
  induction E with
  | nil =>
    intro E0 r h _
    simpa using h
  | cons e rest ih =>
    intro E0 r h hE
    obtain ⟨a, b⟩ := e
    have h1 : RepSpec ns (E0 ++ [(a, b)]) (mergeStep r (a, b)) :=
      repSpec_step h (hE _ (List.mem_cons_self _ _))
    have h2 := ih (E0 ++ [(a, b)]) _ h1 (fun e he => hE e (List.mem_cons_of_mem _ he))
    have hre : (E0 ++ [(a, b)]) ++ rest = E0 ++ ((a, b) :: rest) := by
      simp
    rw [hre] at h2
    exact h2

theorem repFold_spec (ns : List Node) (E : List (Node × Node))
    (hE : ∀ e, e ∈ E → e.2 ∈ ns) : RepSpec ns E (repFold E) := by
  have := repFold_spec_aux ns E [] (fun x => x) (repSpec_nil ns) hE
  simpa [repFold] using this

theorem count_fixed_eq {ns : List Node} (hnd : ns.Nodup) {f g : Node → Node}
    (hfc : ∀ x, x ∈ ns → f x ∈ ns) (hgc : ∀ x, x ∈ ns → g x ∈ ns)
    (hfi : ∀ x, f (f x) = f x) (hgi : ∀ x, g (g x) = g x)
    (hker : ∀ x y, f x = f y ↔ g x = g y) :
    (ns.filter (fun u => decide (f u = u))).length =
      (ns.filter (fun u => decide (g u = u))).length := by
  have hnodupf : (ns.filter (fun u => decide (f u = u))).Nodup := hnd.filter _
  have hnodupg : (ns.filter (fun u => decide (g u = u))).Nodup := hnd.filter _
  rw [← List.toFinset_card_of_nodup hnodupf, ← List.toFinset_card_of_nodup hnodupg]
  apply Finset.card_bij (fun u _ => g u)
  · intro u hu
    rw [List.mem_toFinset, List.mem_filter] at hu ⊢
    exact ⟨hgc u hu.1, decide_eq_true (hgi u)⟩
  · intro u1 h1 u2 h2 heq
    rw [List.mem_toFinset, List.mem_filter] at h1 h2
    have hf1 : f u1 = u1 := of_decide_eq_true h1.2
    have hf2 : f u2 = u2 := of_decide_eq_true h2.2
    have hff : f u1 = f u2 := (hker u1 u2).2 heq
    rw [hf1, hf2] at hff
    exact hff
  · intro v hv
    rw [List.mem_toFinset, List.mem_filter] at hv
    have hgv : g v = v := of_decide_eq_true hv.2
    refine ⟨f v, ?_, ?_⟩
    · rw [List.mem_toFinset, List.mem_filter]
      exact ⟨hfc v hv.1, decide_eq_true (hfi v)⟩
    · have h2 : g (f v) = g v := (hker (f v) v).1 (hfi v)
      rw [h2, hgv]

theorem conn_of_steps {E done : List (Node × Node)}
    (h : ∀ pr, pr ∈ E → Conn done pr.1 pr.2) :
    ∀ x y, Conn E x y → Conn done x y := by
  intro x y hc
  induction hc with
  | refl => exact conn_refl _ _
  | tail _ hbc ih =>
    rcases hbc with hm | hm
    · exact conn_trans ih (h _ hm)
    · exact conn_trans ih (conn_symm (h _ hm))

theorem conn_append_one {done : List (Node × Node)} {u v : Node} (x y : Node) :
    Conn (done ++ [(u, v)]) x y ↔ Conn ((u, v) :: done) x y :=
  conn_congr (fun e => by simp [or_comm]) x y

/-- The invariant carried through the Kruskal loop: the union-find mirrors the
connectivity of the processed edges, `T` is (a permutation of) the list of
added edges, those edges form a forest whose endpoints are exactly the nodes
of `T`, the edge/root counting balances, and every node in a non-trivial
union-find class is already a node of `T`. -/
structure KInv (ns : List Node) (done : List (Node × Node)) (p : Node → Node)
    (T : Graph) (TE : List EdgeT) : Prop where
  uf : UFInv ns p
  conn : ∀ x y, rootOf ns p x = rootOf ns p y ↔ Conn done x y
  gwf : GWF T
  tperm : (edgesData T).Perm TE
  tforest : IsForest (pairsOf TE)
  tconn : ∀ pr, pr ∈ pairsOf TE → Conn done pr.1 pr.2
  tcount : TE.length + rootsCount ns p = ns.length
  tnodes : ∀ x, (x ∈ nodesOf T ↔ ∃ pr, pr ∈ pairsOf TE ∧ (x = pr.1 ∨ x = pr.2))
  tends : ∀ e, e ∈ TE → e.1 ∈ ns ∧ e.2.1 ∈ ns
  tgrow : ∀ w, (∃ z, z ≠ w ∧ rootOf ns p z = rootOf ns p w) → w ∈ nodesOf T

theorem KInv.init (ns : List Node) (hnd : ns.Nodup) :
    KInv ns [] (fun x => x) emptyG [] := by
  refine ⟨UFInv.id_init ns, ?_, GWF_emptyG, ?_, IsForest.nil, ?_, ?_, ?_, ?_, ?_⟩
  · intro x y
    rw [rootOf_id, rootOf_id, conn_nil_iff]
  · show (edgesData emptyG).Perm []
    exact List.Perm.refl _
  · intro pr hpr
    simp [pairsOf] at hpr
  · simp [rootsCount_id]
  · intro x
    constructor
    · intro hx
      simp [nodesOf, emptyG, keysOf] at hx
    · rintro ⟨pr, hpr, _⟩
      simp [pairsOf] at hpr
  · intro e he
    simp at he
  · rintro w ⟨z, hz, hroot⟩
    rw [rootOf_id, rootOf_id] at hroot
    exact absurd hroot hz

theorem KInv.skip {ns : List Node} {done : List (Node × Node)} {p p2 : Node → Node}
    {T : Graph} {TE : List EdgeT} {u v : Node}
    (hK : KInv ns done p T TE) (hinv2 : UFInv ns p2)
    (hroot2 : ∀ x, rootOf ns p2 x = rootOf ns p x)
    (hisr2 : ∀ x, isRoot p2 x ↔ isRoot p x)
    (hsame : rootOf ns p u = rootOf ns p v) :
    KInv ns (done ++ [(u, v)]) p2 T TE := by
  have hcuv : Conn done u v := (hK.conn u v).1 hsame
  refine ⟨hinv2, ?_, hK.gwf, hK.tperm, hK.tforest, ?_, ?_, hK.tnodes, hK.tends, ?_⟩
  · intro x y
    rw [hroot2, hroot2, conn_append_one, conn_cons_redundant hcuv]
    exact hK.conn x y
  · intro pr hpr
    rw [conn_append_one, conn_cons_redundant hcuv]
    exact hK.tconn pr hpr
  · rw [rootsCount_congr hisr2]
    exact hK.tcount
  · rintro w ⟨z, hz, hr⟩
    rw [hroot2, hroot2] at hr
    exact hK.tgrow w ⟨z, hz, hr⟩

theorem link_kernel {A : Type} [DecidableEq A] {a b x y : A} :
    ((if x = a then b else x) = (if y = a then b else y)) ↔
      (x = y ∨ (x = a ∧ b = y) ∨ (x = b ∧ a = y)) := by
  split_ifs with h1 h2 h2
  · constructor
    · intro _
      exact Or.inl (h1.trans h2.symm)
    · intro _
      rfl
  · constructor
    · intro h
      exact Or.inr (Or.inl ⟨h1, h⟩)
    · rintro (h | ⟨_, h⟩ | ⟨_, hay⟩)
      · exact absurd (h ▸ h1) h2
      · exact h
      · exact absurd hay.symm h2
  · constructor
    · intro h
      exact Or.inr (Or.inr ⟨h, h2.symm⟩)
    · rintro (h | ⟨hxa, _⟩ | ⟨hxb, _⟩)
      · exact absurd (h.symm ▸ h2) h1
      · exact absurd hxa h1
      · exact hxb
  · constructor
    · exact Or.inl
    · rintro (h | ⟨hxa, _⟩ | ⟨_, hay⟩)
      · exact h
      · exact absurd hxa h1
      · exact absurd hay.symm h2

theorem KInv.add {ns : List Node} (hnd : ns.Nodup) {done : List (Node × Node)}
    {p p2 : Node → Node} {T : Graph} {TE : List EdgeT} {u v : Node} {attr : EdgeAttrs}
    (hK : KInv ns done p T TE) (hinv2 : UFInv ns p2)
    (hroot2 : ∀ x, rootOf ns p2 x = rootOf ns p x)
    (hisr2 : ∀ x, isRoot p2 x ↔ isRoot p x)
    (hdiff : rootOf ns p u ≠ rootOf ns p v)
    (hu : u ∈ ns) (hv : v ∈ ns)
    {ra rb : Node}
    (hor : (ra = rootOf ns p u ∧ rb = rootOf ns p v) ∨
           (ra = rootOf ns p v ∧ rb = rootOf ns p u)) :
    ∃ TE2, KInv ns (done ++ [(u, v)]) (fun z => if z = ra then rb else p2 z)
      (add_edge T u v attr) TE2 ∧
      (TE2 = (u, v, attr) :: TE ∨ TE2 = (v, u, attr) :: TE) := by
  have hne_uv : u ≠ v := fun hh => hdiff (hh ▸ rfl)
  have hcd : ¬ Conn done u v := fun hc => hdiff ((hK.conn u v).2 hc)
  have hra_root : isRoot p2 ra := by
    rcases hor with ⟨h1, _⟩ | ⟨h1, _⟩ <;>
      exact (hisr2 ra).2 (h1 ▸ rootOf_isRoot hK.uf _)
  have hrb_root : isRoot p2 rb := by
    rcases hor with ⟨_, h2⟩ | ⟨_, h2⟩ <;>
      exact (hisr2 rb).2 (h2 ▸ rootOf_isRoot hK.uf _)
  have hab : ra ≠ rb := by
    rcases hor with ⟨h1, h2⟩ | ⟨h1, h2⟩
    · exact fun hh => hdiff (h1 ▸ h2 ▸ hh)
    · exact fun hh => hdiff (h2 ▸ h1 ▸ hh).symm
  have hans : ra ∈ ns := by
    rcases hor with ⟨h1, _⟩ | ⟨h1, _⟩
    · exact h1 ▸ rootOf_mem hK.uf hu
    · exact h1 ▸ rootOf_mem hK.uf hv
  have hbns : rb ∈ ns := by
    rcases hor with ⟨_, h2⟩ | ⟨_, h2⟩
    · exact h2 ▸ rootOf_mem hK.uf hv
    · exact h2 ▸ rootOf_mem hK.uf hu
  obtain ⟨hinv3, hroot3⟩ := link_inv hinv2 hra_root hrb_root hab hans hbns
  have hR3 : ∀ x, rootOf ns (fun z => if z = ra then rb else p2 z) x =
      if rootOf ns p x = ra then rb else rootOf ns p x := by
    intro x
    rw [hroot3 x, hroot2 x]
  have hnoedge : lookupNbr T u v = none := by
    cases hcase : lookupNbr T u v with
    | none => rfl
    | some a2 =>
      exfalso
      rcases lookup_mem_edgesData hK.gwf hcase with hm | hm
      · have hpr : (u, v) ∈ pairsOf TE :=
          List.mem_map.2 ⟨(u, v, a2), (hK.tperm.mem_iff).1 hm, rfl⟩
        exact hcd (hK.tconn _ hpr)
      · have hpr : (v, u) ∈ pairsOf TE :=
          List.mem_map.2 ⟨(v, u, a2), (hK.tperm.mem_iff).1 hm, rfl⟩
        exact hcd (conn_symm (hK.tconn _ hpr))
  have hTEconn : ¬ Conn (pairsOf TE) u v := fun hc =>
    hcd (conn_of_steps hK.tconn u v hc)
  have hconn3 : ∀ x y,
      rootOf ns (fun z => if z = ra then rb else p2 z) x =
      rootOf ns (fun z => if z = ra then rb else p2 z) y ↔
      Conn (done ++ [(u, v)]) x y := by
    intro x y
    rw [hR3 x, hR3 y, conn_append_one, conn_cons_iff, link_kernel,
      ← hK.conn x y, ← hK.conn x u, ← hK.conn v y, ← hK.conn x v, ← hK.conn u y]
    rcases hor with ⟨h1, h2⟩ | ⟨h1, h2⟩
    · rw [← h1, ← h2]
    · rw [← h1, ← h2]
      tauto
  have hcuv_new : Conn (done ++ [(u, v)]) u v :=
    (conn_append_one u v).2 (conn_single (Or.inl (List.mem_cons_self _ _)))
  have hmono_new : ∀ a b, Conn done a b → Conn (done ++ [(u, v)]) a b :=
    fun a b => conn_mono (fun e he => List.mem_append_left _ he)
  have htcount3 : rootsCount ns (fun z => if z = ra then rb else p2 z) + 1 =
      rootsCount ns p := by
    rw [← rootsCount_congr hisr2]
    exact rootsCount_link hnd hans hra_root hab.symm
  have htgrow : ∀ w, (∃ z, z ≠ w ∧
      rootOf ns (fun z => if z = ra then rb else p2 z) z =
      rootOf ns (fun z => if z = ra then rb else p2 z) w) →
      w ∈ nodesOf (add_edge T u v attr) := by
    intro w hw
    rw [mem_nodesOf_add_edge]
    by_cases hwT : w ∈ nodesOf T
    · exact Or.inr (Or.inr hwT)
    have htriv : ∀ z, z ≠ w → rootOf ns p z ≠ rootOf ns p w := by
      intro z hz hc
      exact hwT (hK.tgrow w ⟨z, hz, hc⟩)
    have hRw : rootOf ns p w = w := by
      by_contra hne
      exact htriv _ hne (rootOf_idem hK.uf w)
    obtain ⟨z, hzw, hz3⟩ := hw
    rw [hR3 z, hR3 w] at hz3
    by_cases hwa : rootOf ns p w = ra
    · have hwa2 : w = ra := hRw ▸ hwa
      rcases hor with ⟨h1, _⟩ | ⟨h1, _⟩
      · by_cases huw : u = w
        · exact Or.inl huw.symm
        · refine absurd ?_ (htriv u huw)
          rw [hRw, ← h1]
          exact hwa2.symm
      · by_cases hvw : v = w
        · exact Or.inr (Or.inl hvw.symm)
        · refine absurd ?_ (htriv v hvw)
          rw [hRw, ← h1]
          exact hwa2.symm
    · rw [if_neg hwa] at hz3
      by_cases hza : rootOf ns p z = ra
      · rw [if_pos hza] at hz3
        have hbw : rb = w := hz3.trans hRw
        rcases hor with ⟨_, h2⟩ | ⟨_, h2⟩
        · by_cases hvw : v = w
          · exact Or.inr (Or.inl hvw.symm)
          · refine absurd ?_ (htriv v hvw)
            rw [hRw, ← h2]
            exact hbw
        · by_cases huw : u = w
          · exact Or.inl huw.symm
          · refine absurd ?_ (htriv u huw)
            rw [hRw, ← h2]
            exact hbw
      · rw [if_neg hza] at hz3
        exact absurd hz3 (htriv z hzw)
  rcases edgesData_add_edge_perm hK.gwf hne_uv hnoedge attr with hperm | hperm
  · refine ⟨(u, v, attr) :: TE, ⟨hinv3, hconn3, GWF_add_edge hK.gwf u v attr,
      hperm.trans (List.Perm.cons _ hK.tperm),
      IsForest.cons hK.tforest hne_uv hTEconn, ?_, ?_, ?_, ?_, htgrow⟩, Or.inl rfl⟩
    · intro pr hpr
      rcases List.mem_cons.1 hpr with rfl | hpr2
      · exact hcuv_new
      · exact hmono_new _ _ (hK.tconn pr hpr2)
    · show (TE.length + 1) + rootsCount ns _ = ns.length
      have := hK.tcount
      omega
    · intro x
      rw [mem_nodesOf_add_edge]
      constructor
      · rintro (hx1 | hx1 | hxT)
        · exact ⟨(u, v), List.mem_cons_self _ _, Or.inl hx1⟩
        · exact ⟨(u, v), List.mem_cons_self _ _, Or.inr hx1⟩
        · obtain ⟨pr, hm, hx⟩ := (hK.tnodes x).1 hxT
          exact ⟨pr, List.mem_cons_of_mem _ hm, hx⟩
      · rintro ⟨pr, hm, hx⟩
        rcases List.mem_cons.1 hm with rfl | hm2
        · rcases hx with rfl | rfl
          · exact Or.inl rfl
          · exact Or.inr (Or.inl rfl)
        · exact Or.inr (Or.inr ((hK.tnodes x).2 ⟨pr, hm2, hx⟩))
    · intro e2 he2
      rcases List.mem_cons.1 he2 with rfl | he3
      · exact ⟨hu, hv⟩
      · exact hK.tends e2 he3
  · refine ⟨(v, u, attr) :: TE, ⟨hinv3, hconn3, GWF_add_edge hK.gwf u v attr,
      hperm.trans (List.Perm.cons _ hK.tperm),
      IsForest.cons hK.tforest hne_uv.symm (fun hc => hTEconn (conn_symm hc)),
      ?_, ?_, ?_, ?_, htgrow⟩, Or.inr rfl⟩
    · intro pr hpr
      rcases List.mem_cons.1 hpr with rfl | hpr2
      · exact conn_symm hcuv_new
      · exact hmono_new _ _ (hK.tconn pr hpr2)
    · show (TE.length + 1) + rootsCount ns _ = ns.length
      have := hK.tcount
      omega
    · intro x
      rw [mem_nodesOf_add_edge]
      constructor
      · rintro (hx1 | hx1 | hxT)
        · exact ⟨(v, u), List.mem_cons_self _ _, Or.inr hx1⟩
        · exact ⟨(v, u), List.mem_cons_self _ _, Or.inl hx1⟩
        · obtain ⟨pr, hm, hx⟩ := (hK.tnodes x).1 hxT
          exact ⟨pr, List.mem_cons_of_mem _ hm, hx⟩
      · rintro ⟨pr, hm, hx⟩
        rcases List.mem_cons.1 hm with rfl | hm2
        · rcases hx with rfl | rfl
          · exact Or.inr (Or.inl rfl)
          · exact Or.inl rfl
        · exact Or.inr (Or.inr ((hK.tnodes x).2 ⟨pr, hm2, hx⟩))
    · intro e2 he2
      rcases List.mem_cons.1 he2 with rfl | he3
      · exact ⟨hv, hu⟩
      · exact hK.tends e2 he3

theorem kruskalGo_cons (fuel : Nat) (u v : Node) (attr : EdgeAttrs)
    (rest : List EdgeT) (p : Node → Node) (rk : Node → Nat) (T : Graph) :
    kruskalGo fuel ((u, v, attr) :: rest) p rk T =
      match ufUnion fuel p rk u v with
      | none => none
      | some (true, q, rk2) => kruskalGo fuel rest q rk2 (add_edge T u v attr)
      | some (false, q, rk2) => kruskalGo fuel rest q rk2 T := rfl

theorem kruskalGo_spec {ns : List Node} (hnd : ns.Nodup) :
    ∀ (edges : List EdgeT) (done : List (Node × Node)) (p : Node → Node)
      (rk : Node → Nat) (T : Graph) (TE : List EdgeT),
      KInv ns done p T TE →
      (∀ e, e ∈ edges → e.1 ∈ ns ∧ e.2.1 ∈ ns) →
      ∃ T2 TE2 p3, kruskalGo (ns.length + 1) edges p rk T = some T2 ∧
        KInv ns (done ++ pairsOf edges) p3 T2 TE2 := by
  intro edges
  induction edges with
  | nil =>
    intro done p rk T TE hK _
    refine ⟨T, TE, p, rfl, ?_⟩
    have h0 : done ++ pairsOf [] = done := by simp [pairsOf]
    rw [h0]
    exact hK
  | cons e rest ih =>
    intro done p rk T TE hK hE
    obtain ⟨u, v, attr⟩ := e
    have hu : u ∈ ns := (hE _ (List.mem_cons_self _ _)).1
    have hv : v ∈ ns := (hE _ (List.mem_cons_self _ _)).2
    have hErest : ∀ e2, e2 ∈ rest → e2.1 ∈ ns ∧ e2.2.1 ∈ ns :=
      fun e2 he => hE e2 (List.mem_cons_of_mem _ he)
    obtain ⟨p1, hp1, hp1prop⟩ := ufFind_ok hK.uf u
    obtain ⟨hinv1, hroots1⟩ := compress_inv hK.uf hp1prop
    have hisr1 := compress_isRoot hK.uf hp1prop
    obtain ⟨p2, hp2, hp2prop⟩ := ufFind_ok hinv1 v
    obtain ⟨hinv2, hroots2⟩ := compress_inv hinv1 hp2prop
    have hisr2x := compress_isRoot hinv1 hp2prop
    have hroot2 : ∀ x, rootOf ns p2 x = rootOf ns p x :=
      fun x => (hroots2 x).trans (hroots1 x)
    have hisr2 : ∀ x, isRoot p2 x ↔ isRoot p x :=
      fun x => (hisr2x x).trans (hisr1 x)
    have hrv : rootOf ns p1 v = rootOf ns p v := hroots1 v
    have hpairs : done ++ pairsOf ((u, v, attr) :: rest) =
        (done ++ [(u, v)]) ++ pairsOf rest := by
      simp [pairsOf]
    by_cases hsame : rootOf ns p u = rootOf ns p v
    · have hun : ufUnion (ns.length + 1) p rk u v = some (false, p2, rk) := by
        simp only [ufUnion, hp1, hp2]
        rw [if_pos (hsame.trans hrv.symm)]
      have hKs := KInv.skip hK hinv2 hroot2 hisr2 hsame
      obtain ⟨T2, TE2, p3, hrun, hK2⟩ := ih (done ++ [(u, v)]) p2 rk T TE hKs hErest
      refine ⟨T2, TE2, p3, ?_, ?_⟩
      · rw [kruskalGo_cons, hun]
        exact hrun
      · rw [hpairs]
        exact hK2
    · have hneq : ¬ rootOf ns p u = rootOf ns p1 v := fun hh => hsame (hh.trans hrv)
      by_cases hrk : rk (rootOf ns p u) < rk (rootOf ns p1 v)
      · have hun : ufUnion (ns.length + 1) p rk u v = some (true,
            fun x => if x = rootOf ns p u then rootOf ns p1 v else p2 x, rk) := by
          simp only [ufUnion, hp1, hp2]
          rw [if_neg hneq, if_pos hrk]
        obtain ⟨TE2, hKi, _⟩ := KInv.add hnd hK hinv2 hroot2 hisr2 hsame hu hv
          (Or.inl ⟨rfl, hrv⟩)
        obtain ⟨T2, TE3, p4, hrun, hK2⟩ := ih (done ++ [(u, v)]) _ rk
          (add_edge T u v attr) TE2 hKi hErest
        refine ⟨T2, TE3, p4, ?_, ?_⟩
        · rw [kruskalGo_cons, hun]
          exact hrun
        · rw [hpairs]
          exact hK2
      · have hun : ufUnion (ns.length + 1) p rk u v = some (true,
            (fun x => if x = rootOf ns p1 v then rootOf ns p u else p2 x),
            if rk (rootOf ns p u) = rk (rootOf ns p1 v) then
              (fun x => if x = rootOf ns p u then rk x + 1 else rk x) else rk) := by
          simp only [ufUnion, hp1, hp2]
          rw [if_neg hneq, if_neg hrk]
        obtain ⟨TE2, hKi, _⟩ := KInv.add hnd hK hinv2 hroot2 hisr2 hsame hu hv
          (Or.inr ⟨hrv, rfl⟩)
        obtain ⟨T2, TE3, p4, hrun, hK2⟩ := ih (done ++ [(u, v)]) _ _
          (add_edge T u v attr) TE2 hKi hErest
        refine ⟨T2, TE3, p4, ?_, ?_⟩
        · rw [kruskalGo_cons, hun]
          exact hrun
        · rw [hpairs]
          exact hK2

theorem kruskal_mst_spec {G : Graph} (hG : GWF G) :
    ∃ T, kruskal_mst G = some T ∧ GWF T ∧
      IsForest (pairsOf (edgesData T)) ∧
      (edgesData T).length + numComponents G = (nodesOf G).length ∧
      (∀ x, x ∈ nodesOf T → x ∈ nodesOf G) ∧
      (∀ w, (∃ z, z ≠ w ∧ Conn (pairsOf (edgesData G)) z w) → w ∈ nodesOf T) := by
  have hnd := hG.knodup
  have hperm_se : (sortedEdges G).Perm (edgesData G) := List.perm_insertionSort _ _
  have hends : ∀ e, e ∈ sortedEdges G → e.1 ∈ nodesOf G ∧ e.2.1 ∈ nodesOf G :=
    fun e he => mem_edgesData_endpoints hG (hperm_se.mem_iff.1 he)
  obtain ⟨T, TE, p3, hrun, hK⟩ := kruskalGo_spec hnd (sortedEdges G) [] (fun x => x)
    (fun _ => 0) emptyG [] (KInv.init _ hnd) hends
  have hpe : (pairsOf (sortedEdges G)).Perm (pairsOf (edgesData G)) := hperm_se.map _
  have hconnGE : ∀ x y, Conn ([] ++ pairsOf (sortedEdges G)) x y ↔
      Conn (pairsOf (edgesData G)) x y := by
    intro x y
    rw [List.nil_append]
    exact conn_congr (fun e => hpe.mem_iff) x y
  have hEG2 : ∀ e, e ∈ pairsOf (edgesData G) → e.2 ∈ nodesOf G := by
    intro e he
    obtain ⟨et, hm, heq⟩ := List.mem_map.1 he
    have := (mem_edgesData_endpoints hG hm).2
    rw [← heq]
    exact this
  have hspec := repFold_spec (nodesOf G) (pairsOf (edgesData G)) hEG2
  refine ⟨T, hrun, hK.gwf, ?_, ?_, ?_, ?_⟩
  · have hp2 : (pairsOf (edgesData T)).Perm (pairsOf TE) := hK.tperm.map _
    exact isForest_perm hp2.symm hK.tforest
  · have hlen : (edgesData T).length = TE.length := hK.tperm.length_eq
    have hroots : rootsCount (nodesOf G) p3 = numComponents G := by
      unfold rootsCount numComponents
      have hfix : ((nodesOf G).filter (fun u => decide (isRoot p3 u))).length =
          ((nodesOf G).filter (fun u => decide (rootOf (nodesOf G) p3 u = u))).length := by
        congr 1
        apply List.filter_congr
        intro a _
        apply decide_eq_decide.2
        constructor
        · exact fun hh => rootOf_of_isRoot hh
        · exact fun hh => isRoot_of_rootOf_eq_self hK.uf hh
      rw [hfix]
      apply count_fixed_eq hnd
      · exact fun x hx => rootOf_mem hK.uf hx
      · exact hspec.closed
      · exact fun x => rootOf_idem hK.uf x
      · exact fun x => hspec.idem x
      · intro x y
        rw [hK.conn x y]
        unfold specRep
        rw [hspec.ker x y]
        exact hconnGE x y
    have := hK.tcount
    omega
  · intro x hxT
    obtain ⟨pr, hm, hx⟩ := (hK.tnodes x).1 hxT
    obtain ⟨et, hmet, heq⟩ := List.mem_map.1 hm
    obtain ⟨h1, h2⟩ := hK.tends et hmet
    rcases hx with rfl | rfl
    · rw [← heq]
      exact h1
    · rw [← heq]
      exact h2
  · rintro w ⟨z, hz, hc⟩
    apply hK.tgrow w
    refine ⟨z, hz, ?_⟩
    rw [hK.conn z w]
    exact (hconnGE z w).2 hc

/-!
Concrete datasets used to instantiate the general theorems and to exhibit
counterexamples.
-/

def demoRows : List Row :=
  [⟨"A", "B", 10, 1, 1, 2, "S1", 3, 4, "S2"⟩,
   ⟨"B", "C", 10, 1, 3, 4, "S2", 5, 6, "S3"⟩,
   ⟨"A", "C", 5, 4, 1, 2, "S1", 5, 6, "S3"⟩]

def demoG : Graph := load_graph demoRows

def selfRows : List Row := [⟨"A", "A", 1, 1, 0, 0, "S", 0, 0, "S"⟩]

def selfG : Graph := load_graph selfRows

def ciRows : List Row :=
  [⟨"AB", "X", 1, 1, 0, 0, "S", 0, 0, "S"⟩,
   ⟨"ab", "Y", 1, 1, 0, 0, "S", 0, 0, "S"⟩]

def ciG : Graph := load_graph ciRows

def c3Rows : List Row :=
  [⟨"A", "B", 10, 1, 0, 0, "S", 0, 0, "S"⟩,
   ⟨"A", "C", 10, 3, 0, 0, "S", 0, 0, "S"⟩]

def dupRows : List Row :=
  [⟨"A", "B", 10, 1, 0, 0, "S", 0, 0, "S"⟩,
   ⟨"B", "A", 7, 2, 1, 1, "S2", 1, 1, "S2"⟩]

/-- C1: on the three-row demo dataset A–B (10 km, risk 1), B–C (10 km, risk 1),
A–C (5 km, risk 4), the Kruskal forest keeps A–B and B–C (weight 60 each) and
drops A–C (weight 205), and `/get_corridor?source=a&destination=c` answers 200
with the two-hop path A→B→C, total distance 20 and total risk 2. -/
theorem demo_end_to_end :
    (kruskal_mst demoG).map (fun T => (lookupNbr T "A" "B", lookupNbr T "B" "C",
        lookupNbr T "A" "C")) =
      some (some ⟨10, 1, 60⟩, some ⟨10, 1, 60⟩, none) ∧
    get_corridor demoG (some "a") (some "c") = .ok (.ok
      [⟨"A", "B", 10, 1, "S1", "S2", "A (S1)", "B (S2)"⟩,
       ⟨"B", "C", 10, 1, "S2", "S3", "B (S2)", "C (S3)"⟩]
      [("A", ⟨1, 2, "S1"⟩), ("B", ⟨3, 4, "S2"⟩), ("C", ⟨5, 6, "S3"⟩)]
      20 2) := by
  constructor
  · with_unfolding_all rfl
  · with_unfolding_all rfl

/-- C2: for every dataset, the spanning forest returned by `kruskal_mst` is
cycle-free and its edge count plus the number of connected components of the
graph equals the number of graph nodes, i.e. it has exactly |V| - c edges. -/
theorem kruskal_forest_edge_count (rows : List Row) :
    ∃ T, kruskal_mst (load_graph rows) = some T ∧
      IsForest (pairsOf (edgesData T)) ∧
      (edgesData T).length + numComponents (load_graph rows) =
        (nodesOf (load_graph rows)).length := by
  obtain ⟨T, h1, _, h3, h4, _, _⟩ := kruskal_mst_spec (GWF_load_graph rows)
  exact ⟨T, h1, h3, h4⟩

/-- C4 (corrected): the forest returned by `kruskal_mst` only contains nodes of
the graph, and contains every node connected to some other node; but a node
whose rows are all self-loops (or which is otherwise isolated) is dropped, so
the claimed node-set equality fails and the defensive 404 branch of
`get_corridor` is reachable (see the counterexample). -/
theorem kruskal_node_set (rows : List Row) :
    ∃ T, kruskal_mst (load_graph rows) = some T ∧
      (∀ x, x ∈ nodesOf T → x ∈ nodesOf (load_graph rows)) ∧
      (∀ w, (∃ z, z ≠ w ∧ Conn (pairsOf (edgesData (load_graph rows))) z w) →
        w ∈ nodesOf T) := by
  obtain ⟨T, h1, _, _, _, h5, h6⟩ := kruskal_mst_spec (GWF_load_graph rows)
  exact ⟨T, h1, h5, h6⟩

theorem kruskal_node_set_witness :
    ∃ T, kruskal_mst (load_graph demoRows) = some T ∧ "A" ∈ nodesOf T := by
  obtain ⟨T, h1, _, h3⟩ := kruskal_node_set demoRows
  refine ⟨T, h1, h3 "A" ⟨"B", by decide, ?_⟩⟩
  exact conn_single (Or.inr (by with_unfolding_all decide))

theorem kruskal_node_set_cex :
    kruskal_mst selfG = some emptyG ∧ "A" ∈ nodesOf selfG ∧
      "A" ∉ nodesOf emptyG := by
  refine ⟨?_, ?_, ?_⟩
  · with_unfolding_all rfl
  · with_unfolding_all decide
  · with_unfolding_all decide

theorem sortedEdges_weight_formula {rows : List Row} {e : EdgeT}
    (he : e ∈ sortedEdges (load_graph rows)) :
    e.2.2.Weight = e.2.2.Distance + e.2.2.Risk * 50 := by
  have hmem : e ∈ edgesData (load_graph rows) :=
    (List.perm_insertionSort wle _).mem_iff.1 he
  exact WeightsOK_load_graph rows e.1 e.2.1 e.2.2
    (mem_edgesData_lookup (GWF_load_graph rows) hmem)

/-- C3: every edge the graph builder stores has weight distance + risk * 50,
and in the weight-sorted edge ordering of the MST reducer two stored edges
with equal distance are ordered with the strictly lower-risk one strictly
earlier. -/
theorem edge_weight_and_sort_order (rows : List Row) :
    (∀ u v ea, lookupNbr (load_graph rows) u v = some ea →
      ea.Weight = ea.Distance + ea.Risk * 50) ∧
    (∀ i j (hi : i < (sortedEdges (load_graph rows)).length)
        (hj : j < (sortedEdges (load_graph rows)).length),
      ((sortedEdges (load_graph rows)).get ⟨i, hi⟩).2.2.Distance =
        ((sortedEdges (load_graph rows)).get ⟨j, hj⟩).2.2.Distance →
      ((sortedEdges (load_graph rows)).get ⟨i, hi⟩).2.2.Risk <
        ((sortedEdges (load_graph rows)).get ⟨j, hj⟩).2.2.Risk →
      i < j) := by
  refine ⟨WeightsOK_load_graph rows, ?_⟩
  intro i j hi hj hdist hrisk
  by_contra hle
  push_neg at hle
  have hsorted : (sortedEdges (load_graph rows)).Sorted wle :=
    List.sorted_insertionSort wle (edgesData (load_graph rows))
  have hwi := sortedEdges_weight_formula
    (List.get_mem (sortedEdges (load_graph rows)) i hi)
  have hwj := sortedEdges_weight_formula
    (List.get_mem (sortedEdges (load_graph rows)) j hj)
  rcases Nat.lt_or_ge j i with hji | hij
  · have hrel : wle ((sortedEdges (load_graph rows)).get ⟨j, hj⟩)
        ((sortedEdges (load_graph rows)).get ⟨i, hi⟩) :=
      hsorted.rel_get_of_lt hji
    unfold wle at hrel
    rw [hwi, hwj, ← hdist] at hrel
    nlinarith [hrel, hrisk]
  · have : i = j := Nat.le_antisymm hij hle
    subst this
    exact absurd hdist (by intro _; exact absurd hrisk (lt_irrefl _))

theorem edge_weight_and_sort_order_witness :
    ((⟨10, 1, 60⟩ : EdgeAttrs).Weight =
      (⟨10, 1, 60⟩ : EdgeAttrs).Distance + (⟨10, 1, 60⟩ : EdgeAttrs).Risk * 50) ∧
    (0 : Nat) < 1 := by
  constructor
  · exact (edge_weight_and_sort_order c3Rows).1 "A" "B" ⟨10, 1, 60⟩
      (by with_unfolding_all rfl)
  · exact (edge_weight_and_sort_order c3Rows).2 0 1
      (by with_unfolding_all decide) (by with_unfolding_all decide)
      (by with_unfolding_all decide) (by with_unfolding_all decide)

/-- C6: when several dataset rows describe the same unordered node pair, the
stored edge carries exactly the last such row's distance, risk and derived
weight, and both orientations of the pair look up that same single attribute
record (the storage holds at most one edge per unordered pair). -/
theorem edge_last_write_wins (rows : List Row) (u v : Node) (r : Row)
    (h : lastMatch rows u v = some r) :
    lookupNbr (load_graph rows) u v =
      some ⟨r.distance, r.risk, r.distance + r.risk * 50⟩ ∧
    lookupNbr (load_graph rows) v u = lookupNbr (load_graph rows) u v := by
  constructor
  · show lookupNbr (rows.foldl applyRow emptyG) u v = _
    rw [lookupNbr_foldl_lastMatch, h]
  · exact (GWF_load_graph rows).symm v u

theorem edge_last_write_wins_witness :
    lookupNbr (load_graph dupRows) "A" "B" = some ⟨7, 2, 7 + 2 * 50⟩ ∧
    lookupNbr (load_graph dupRows) "B" "A" = lookupNbr (load_graph dupRows) "A" "B" :=
  edge_last_write_wins dupRows "A" "B" ⟨"B", "A", 7, 2, 1, 1, "S2", 1, 1, "S2"⟩
    (by with_unfolding_all rfl)

theorem resolve_unique_ci {G : Graph} {N : Node} (hN : N ∈ nodesOf G)
    (huniq : ∀ M, M ∈ nodesOf G → M.toLower = N.toLower → M = N)
    {inp : String} (hci : inp.toLower = N.toLower) :
    get_real_node_name G inp = some N := by
  unfold get_real_node_name
  show (match List.find? (fun n => decide (String.toLower n = inp.toLower)) (nodesOf G) with
    | some n => some n
    | none =>
      match get_close_matches inp.toLower
          (List.map (fun n => String.toLower n) (nodesOf G)) 1 (4 / 5) with
      | [] => none
      | m :: _ => List.find? (fun n => decide (String.toLower n = m)) (nodesOf G)) = some N
  split
  · rename_i M hfind
    have hpM : M.toLower = inp.toLower := by
      have := List.find?_some hfind
      simpa using this
    have hMem := List.mem_of_find?_eq_some hfind
    exact congrArg some (huniq M hMem (hpM.trans hci))
  · rename_i hfind
    exfalso
    have hno := List.find?_eq_none.1 hfind N hN
    simp [hci] at hno

/-- C7 (corrected): an input differing from a node name N only in letter case
is resolved by the case-insensitive exact-match step, but to the FIRST node in
insertion order whose lowercase form matches the input — which is N exactly
when N is the only node with its lowercase form.  With two nodes differing
only in case, the other node can be returned (see the counterexample). -/
theorem resolver_case_insensitive (G : Graph) (N : Node) (inp : String)
    (hN : N ∈ nodesOf G)
    (huniq : ∀ M, M ∈ nodesOf G → M.toLower = N.toLower → M = N)
    (hci : inp.toLower = N.toLower) :
    get_real_node_name G inp = some N :=
  resolve_unique_ci hN huniq hci

theorem resolver_case_insensitive_witness :
    get_real_node_name demoG "a" = some "A" :=
  resolver_case_insensitive demoG "A" "a" (by with_unfolding_all decide)
    (by with_unfolding_all decide) (by with_unfolding_all rfl)

theorem resolver_case_insensitive_cex :
    "ab" ∈ nodesOf ciG ∧ ("Ab" : String).toLower = ("ab" : String).toLower ∧
      get_real_node_name ciG "Ab" = some "AB" ∧ ("AB" : String) ≠ "ab" := by
  refine ⟨?_, ?_, ?_, ?_⟩
  · with_unfolding_all decide
  · with_unfolding_all rfl
  · with_unfolding_all rfl
  · decide

/-- C8 (corrected): resolving an already-canonical node name N returns N
itself only when N is the unique node with its lowercase form; when an
earlier-inserted node differs from N only in case, that node is returned
instead and idempotence fails (see the counterexample). -/
theorem resolver_idempotent (G : Graph) (N : Node) (hN : N ∈ nodesOf G)
    (huniq : ∀ M, M ∈ nodesOf G → M.toLower = N.toLower → M = N) :
    get_real_node_name G N = some N :=
  resolve_unique_ci hN huniq rfl

theorem resolver_idempotent_witness :
    get_real_node_name demoG "B" = some "B" :=
  resolver_idempotent demoG "B" (by with_unfolding_all decide)
    (by with_unfolding_all decide)

theorem resolver_idempotent_cex :
    "ab" ∈ nodesOf ciG ∧ get_real_node_name ciG "ab" = some "AB" ∧
      some "AB" ≠ some "ab" := by
  refine ⟨?_, ?_, ?_⟩
  · with_unfolding_all decide
  · with_unfolding_all rfl
  · decide

/-- C9 (corrected): when both query parameters are present and nonempty and
the destination string fails name resolution, the handler answers 404 with
"Sanctuary not found. Check spelling.".  When the source parameter is missing
or empty the 400 missing-parameter check fires first, so the claimed 404 does
not cover every query with an unresolvable destination (see counterexample). -/
theorem corridor_unknown_dest (G : Graph) (s d : String) (hs : s ≠ "") (hd : d ≠ "")
    (hres : get_real_node_name G d = none) :
    get_corridor G (some s) (some d) =
      .ok (.err 404 "Sanctuary not found. Check spelling.") := by
  unfold get_corridor
  have h1 : (falsyStr (some s) || falsyStr (some d)) = false := by
    simp [falsyStr, hs, hd]
  rw [h1]
  simp [Option.getD, hres, falsyRes]

theorem corridor_unknown_dest_witness :
    get_corridor demoG (some "a") (some "zzz") =
      .ok (.err 404 "Sanctuary not found. Check spelling.") :=
  corridor_unknown_dest demoG "a" "zzz" (by decide) (by decide)
    (by with_unfolding_all rfl)

theorem corridor_unknown_dest_cex :
    get_real_node_name demoG "zzz" = none ∧
      get_corridor demoG none (some "zzz") =
        .ok (.err 400 "Missing source or destination") := by
  constructor
  · with_unfolding_all rfl
  · rfl

theorem resolve_mem {G : Graph} {s n : String}
    (h : get_real_node_name G s = some n) : n ∈ nodesOf G := by
  unfold get_real_node_name at h
  replace h : (match List.find? (fun m => decide (String.toLower m = s.toLower))
        (nodesOf G) with
      | some m => some m
      | none =>
        match get_close_matches s.toLower
            (List.map (fun m => String.toLower m) (nodesOf G)) 1 (4 / 5) with
        | [] => none
        | m :: _ => List.find? (fun x => decide (String.toLower x = m)) (nodesOf G)) =
      some n := h
  cases hfind : List.find? (fun m => decide (String.toLower m = s.toLower)) (nodesOf G) with
  | some m =>
    rw [hfind] at h
    simp only [Option.some.injEq] at h
    exact h ▸ List.mem_of_find?_eq_some hfind
  | none =>
    rw [hfind] at h
    cases hcm : get_close_matches s.toLower
        (List.map (fun m => String.toLower m) (nodesOf G)) 1 (4 / 5) with
    | nil =>
      rw [hcm] at h
      simp at h
    | cons m rest =>
      rw [hcm] at h
      exact List.mem_of_find?_eq_some h

/-- C10 (corrected): when both nonempty parameters resolve to the same node n,
the 200 empty-path response with zero totals and the single-node map is
produced only when n belongs to the computed spanning forest (which holds
whenever n is connected to some other node); a node the forest drops — e.g.
one appearing only in a self-loop row — gets 404 "No path found" instead
(see the counterexample). -/
theorem corridor_same_endpoint (rows : List Row) (s d n : String)
    (hs : s ≠ "") (hd : d ≠ "") (hn : n ≠ "")
    (hrs : get_real_node_name (load_graph rows) s = some n)
    (hrd : get_real_node_name (load_graph rows) d = some n)
    (hz : ∃ z, z ≠ n ∧ Conn (pairsOf (edgesData (load_graph rows))) z n) :
    ∃ na, alookup (load_graph rows).nattrs n = some na ∧
      get_corridor (load_graph rows) (some s) (some d) =
        .ok (.ok [] [(n, na)] 0 0) := by
  obtain ⟨T, hmst, _, _, _, _, hgrow⟩ := kruskal_mst_spec (GWF_load_graph rows)
  have hnT : n ∈ nodesOf T := hgrow n hz
  have hnG : n ∈ nodesOf (load_graph rows) := resolve_mem hrs
  obtain ⟨na, hna⟩ := Option.isSome_iff_exists.1 (AttrsOK_load_graph rows n hnG)
  refine ⟨na, hna, ?_⟩
  have hdij : dijkstra T n n = some [n] := by
    unfold dijkstra
    rw [if_pos rfl]
  have hcn : corridorNodes (load_graph rows) [n] = .ok [(n, na)] := by
    unfold corridorNodes
    rw [hna]
    rfl
  unfold get_corridor
  have h400 : (falsyStr (some s) || falsyStr (some d)) = false := by
    simp [falsyStr, hs, hd]
  rw [h400]
  simp only [Bool.false_eq_true, if_false, Option.getD_some]
  rw [hrs, hrd]
  have h404 : (falsyRes (some n) || falsyRes (some n)) = false := by
    simp [falsyRes, hn]
  rw [h404]
  simp only [Bool.false_eq_true, if_false, Option.getD_some]
  rw [hmst]
  simp only []
  rw [if_neg (show ¬ (n ∉ nodesOf T ∨ n ∉ nodesOf T) by simp [hnT])]
  rw [hdij]
  simp only [List.tail_cons, List.zip_nil_right]
  rw [show corridorEdges (load_graph rows) [] = .ok ([], 0, 0) from rfl, hcn]

theorem corridor_same_endpoint_witness :
    ∃ na, alookup (load_graph demoRows).nattrs "A" = some na ∧
      get_corridor (load_graph demoRows) (some "A") (some "A") =
        .ok (.ok [] [("A", na)] 0 0) :=
  corridor_same_endpoint demoRows "A" "A" "A" (by decide) (by decide) (by decide)
    (by with_unfolding_all rfl) (by with_unfolding_all rfl)
    ⟨"B", by decide, conn_single (Or.inr (by with_unfolding_all decide))⟩

theorem corridor_same_endpoint_cex :
    get_real_node_name selfG "A" = some "A" ∧
      get_corridor selfG (some "A") (some "A") = .ok (.err 404 "No path found") := by
  constructor
  · with_unfolding_all rfl
  · with_unfolding_all rfl

/-- C5 (corrected): the loader's required columns are the ten it actually
reads, with "Distance (km)" rather than "Distance"; and when the first (in
access order) required column is absent from a dataset with at least one row
of well-typed cells, loading fails with an uncaught KeyError naming that
column — not with the documented ParseError, which covers only
`pd.read_csv`-level failures. -/
theorem load_graph_df_missing (df : DataFrame) (hw : WellTyped df)
    (hr : df.rows ≠ []) {c : String} (hc : firstMissing df = some c) :
    load_graph_df (.parsed df) = .error (.keyError c) := by
  obtain ⟨r, rest, hrows⟩ : ∃ r rest, df.rows = r :: rest := by
    cases hh : df.rows with
    | nil => exact absurd hh hr
    | cons a l => exact ⟨a, l, rfl⟩
  obtain ⟨⟨s1, h1⟩, ⟨s2, h2⟩, ⟨q3, h3⟩, ⟨q4, h4⟩, ⟨q5, h5⟩, ⟨q6, h6⟩,
    ⟨s7, h7⟩, ⟨q8, h8⟩, ⟨q9, h9⟩, ⟨s10, h10⟩⟩ :=
    hw r (hrows ▸ List.mem_cons_self r rest)
  have herr : applyDfRow df emptyG r = .error (.keyError c) := by
    by_cases hm1 : "Source" ∈ df.columns
    case neg =>
      have hcc : "Source" = c := by
        simpa [firstMissing, requiredCols, List.find?, hm1] using hc
      subst hcc
      simp [applyDfRow, getCell, Bind.bind, Except.bind, hm1]
    case pos =>
    by_cases hm2 : "Destination" ∈ df.columns
    case neg =>
      have hcc : "Destination" = c := by
        simpa [firstMissing, requiredCols, List.find?, hm1, hm2] using hc
      subst hcc
      simp [applyDfRow, getCell, Bind.bind, Except.bind, hm1, hm2]
    case pos =>
    by_cases hm3 : "Distance (km)" ∈ df.columns
    case neg =>
      have hcc : "Distance (km)" = c := by
        simpa [firstMissing, requiredCols, List.find?, hm1, hm2, hm3] using hc
      subst hcc
      simp [applyDfRow, getCell, Bind.bind, Except.bind, hm1, hm2, hm3]
    case pos =>
    by_cases hm4 : "Risk Level" ∈ df.columns
    case neg =>
      have hcc : "Risk Level" = c := by
        simpa [firstMissing, requiredCols, List.find?, hm1, hm2, hm3, hm4] using hc
      subst hcc
      simp [applyDfRow, getCell, Bind.bind, Except.bind, hm1, hm2, hm3, hm4]
    case pos =>
    by_cases hm5 : "Source_Latitude" ∈ df.columns
    case neg =>
      have hcc : "Source_Latitude" = c := by
        simpa [firstMissing, requiredCols, List.find?, hm1, hm2, hm3, hm4, hm5] using hc
      subst hcc
      simp [applyDfRow, getCell, Bind.bind, Except.bind, hm1, hm2, hm3, hm4, hm5,
        h1, h2, h3, h4, cellNum, cellStr]
    case pos =>
    by_cases hm6 : "Source_Longitude" ∈ df.columns
    case neg =>
      have hcc : "Source_Longitude" = c := by
        simpa [firstMissing, requiredCols, List.find?, hm1, hm2, hm3, hm4, hm5, hm6] using hc
      subst hcc
      simp [applyDfRow, getCell, Bind.bind, Except.bind, hm1, hm2, hm3, hm4, hm5, hm6,
        h1, h2, h3, h4, h5, cellNum, cellStr]
    case pos =>
    by_cases hm7 : "Source_State" ∈ df.columns
    case neg =>
      have hcc : "Source_State" = c := by
        simpa [firstMissing, requiredCols, List.find?, hm1, hm2, hm3, hm4, hm5, hm6,
          hm7] using hc
      subst hcc
      simp [applyDfRow, getCell, Bind.bind, Except.bind, hm1, hm2, hm3, hm4, hm5, hm6, hm7,
        h1, h2, h3, h4, h5, h6, cellNum, cellStr]
    case pos =>
    by_cases hm8 : "Destination_Latitude" ∈ df.columns
    case neg =>
      have hcc : "Destination_Latitude" = c := by
        simpa [firstMissing, requiredCols, List.find?, hm1, hm2, hm3, hm4, hm5, hm6,
          hm7, hm8] using hc
      subst hcc
      simp [applyDfRow, getCell, Bind.bind, Except.bind, hm1, hm2, hm3, hm4, hm5, hm6, hm7, hm8,
        h1, h2, h3, h4, h5, h6, h7, cellNum, cellStr]
    case pos =>
    by_cases hm9 : "Destination_Longitude" ∈ df.columns
    case neg =>
      have hcc : "Destination_Longitude" = c := by
        simpa [firstMissing, requiredCols, List.find?, hm1, hm2, hm3, hm4, hm5, hm6,
          hm7, hm8, hm9] using hc
      subst hcc
      simp [applyDfRow, getCell, Bind.bind, Except.bind, hm1, hm2, hm3, hm4, hm5, hm6, hm7, hm8, hm9,
        h1, h2, h3, h4, h5, h6, h7, h8, cellNum, cellStr]
    case pos =>
    by_cases hm10 : "Destination_State" ∈ df.columns
    case neg =>
      have hcc : "Destination_State" = c := by
        simpa [firstMissing, requiredCols, List.find?, hm1, hm2, hm3, hm4, hm5, hm6,
          hm7, hm8, hm9, hm10] using hc
      subst hcc
      simp [applyDfRow, getCell, Bind.bind, Except.bind, hm1, hm2, hm3, hm4, hm5, hm6, hm7, hm8, hm9, hm10,
        h1, h2, h3, h4, h5, h6, h7, h8, h9, cellNum, cellStr]
    case pos =>
      exfalso
      simp [firstMissing, requiredCols, List.find?, hm1, hm2, hm3, hm4, hm5, hm6,
        hm7, hm8, hm9, hm10] at hc
  show df.rows.foldlM (applyDfRow df) emptyG = _
  rw [hrows, List.foldlM_cons, herr]
  rfl

def claimedCols : List String :=
  ["Source", "Destination", "Distance", "Risk Level",
   "Source_Latitude", "Source_Longitude", "Source_State",
   "Destination_Latitude", "Destination_Longitude", "Destination_State"]

def cexRow5 : String → Cell := fun col =>
  if col = "Source" then .str "A"
  else if col = "Destination" then .str "B"
  else if col = "Distance" then .num 10
  else if col = "Risk Level" then .num 1
  else if col = "Source_State" then .str "S"
  else if col = "Destination_State" then .str "S"
  else .num 0

def cexDf5 : DataFrame := ⟨claimedCols, [cexRow5]⟩

theorem load_graph_df_missing_cex :
    "Distance" ∈ cexDf5.columns ∧ "Distance (km)" ∉ cexDf5.columns ∧
      load_graph_df (.parsed cexDf5) = .error (.keyError "Distance (km)") := by
  refine ⟨?_, ?_, ?_⟩
  · decide
  · decide
  · with_unfolding_all rfl

def witCols5 : List String :=
  ["Source", "Destination", "Distance (km)",
   "Source_Latitude", "Source_Longitude", "Source_State",
   "Destination_Latitude", "Destination_Longitude", "Destination_State"]

def witRow5 : String → Cell := fun col =>
  if col = "Source" then .str "A"
  else if col = "Destination" then .str "B"
  else if col = "Source_State" then .str "S"
  else if col = "Destination_State" then .str "S"
  else .num 0

def witDf5 : DataFrame := ⟨witCols5, [witRow5]⟩

theorem load_graph_df_missing_witness :
    load_graph_df (.parsed witDf5) = .error (.keyError "Risk Level") := by
  refine load_graph_df_missing witDf5 ?_ (List.cons_ne_nil _ _) ?_
  · intro row hrow
    replace hrow : row ∈ [witRow5] := hrow
    rw [List.mem_singleton] at hrow
    subst hrow
    exact ⟨⟨"A", by with_unfolding_all rfl⟩, ⟨"B", by with_unfolding_all rfl⟩,
      ⟨0, by with_unfolding_all rfl⟩, ⟨0, by with_unfolding_all rfl⟩,
      ⟨0, by with_unfolding_all rfl⟩, ⟨0, by with_unfolding_all rfl⟩,
      ⟨"S", by with_unfolding_all rfl⟩, ⟨0, by with_unfolding_all rfl⟩,
      ⟨0, by with_unfolding_all rfl⟩, ⟨"S", by with_unfolding_all rfl⟩⟩
  · with_unfolding_all rfl
